import Mathlib

/-!
Verification development for the confile repository (src/confile.h):
the CON binary tree-serialization format and its JSON-like text codec.

The data model and every operation below are translated from the C++
source.  Machine bytes are modelled as `Nat` (a real stream holds values
below 256); multi-byte integers use the host's little-endian order, as on
the reference platform.  External platform services (zlib deflate, the
IEEE-754 memory image of a `double`, and the iostream `double`
read/format routines) are not part of the repository; they are threaded
through the codecs as an explicit `Platform` record of byte/number
transforms, exactly where the source invokes them.
-/

namespace Confile

/-- Little-endian encoding of `n` into `w` bytes, as produced by
`stream.write((char*)&x, w)` on the little-endian reference host. -/
def toLE : Nat → Nat → List Nat
  | 0, _ => []
  | w + 1, n => n % 256 :: toLE w (n / 256)

/-- Little-endian decoding of a byte list, as read by
`stream.read((char*)&x, w)`. -/
def fromLE : List Nat → Nat
  | [] => 0
  | b :: bs => b + 256 * fromLE bs

/-- Reading `k` raw bytes from a stream: succeeds with the bytes and the
remaining stream when enough input is present.  A short read in the C++
source leaves the destination buffer holding unspecified data (the
source itself remarks on this near `ConType::Object` decoding); the
model reports it as `none`. -/
def readBytes (k : Nat) (s : List Nat) : Option (List Nat × List Nat) :=
  if k ≤ s.length then some (s.take k, s.drop k) else none

theorem toLE_length (w n : Nat) : (toLE w n).length = w := by
  induction w generalizing n with
  | zero => rfl
  | succ w ih => simp [toLE, ih]

theorem fromLE_toLE (w n : Nat) : fromLE (toLE w n) = n % 256 ^ w := by
  induction w generalizing n with
  | zero => simp [toLE, fromLE, Nat.mod_one]
  | succ w ih =>
    simp only [toLE, fromLE, ih]
    rw [Nat.pow_succ, Nat.mul_comm (256 ^ w) 256, Nat.mod_mul]

theorem readBytes_append (xs rest : List Nat) :
    readBytes xs.length (xs ++ rest) = some (xs, rest) := by
  simp [readBytes, List.take_append, List.drop_append]

/- The tagged value tree of the source (ConValue/ConArray/ConObject).
ConValue.integer holds the int64_t value, ConValue.float holds the
real value of the double, strings are raw byte sequences.
ConValue.invalid t models a ConValue whose type field was set by
this->type = (ConType)type from a byte t outside the seven known tags
(its data stays null); no public constructor produces it.
ConObject is std::map<std::string, ConValue>: an association list
kept sorted by key with unique keys (see ConObject.insert). -/
mutual
inductive ConValue : Type where
  | null : ConValue
  | boolean : Bool → ConValue
  | integer : Int → ConValue
  | float : ℚ → ConValue
  | string : List Nat → ConValue
  | array : ConArray → ConValue
  | object : ConObject → ConValue
  | invalid : Nat → ConValue
inductive ConArray : Type where
  | nil : ConArray
  | cons : ConValue → ConArray → ConArray
inductive ConObject : Type where
  | nil : ConObject
  | cons : List Nat → ConValue → ConObject → ConObject
end

deriving instance DecidableEq for ConValue, ConArray, ConObject

/-- Number of elements of a `ConArray` (`values.size()`). -/
def ConArray.length : ConArray → Nat
  | .nil => 0
  | .cons _ rest => rest.length + 1

/-- Number of entries of a `ConObject` (`values.size()`). -/
def ConObject.length : ConObject → Nat
  | .nil => 0
  | .cons _ _ rest => rest.length + 1

/-- Lexicographic byte order: `std::string::operator<` (`std::map`'s key
order, which compares `char` data with unsigned `memcmp` semantics). -/
def bytesLt : List Nat → List Nat → Bool
  | [], [] => false
  | [], _ :: _ => true
  | _ :: _, [] => false
  | a :: as, b :: bs => if a < b then true else if b < a then false else bytesLt as bs

/-- `std::map` insertion as performed by `values[key] = value`: keep the
list sorted by `bytesLt`, overwriting the entry when the key is present. -/
def ConObject.insert : ConObject → List Nat → ConValue → ConObject
  | .nil, k, v => .cons k v .nil
  | .cons k2 v2 rest, k, v =>
    if bytesLt k k2 then .cons k v (.cons k2 v2 rest)
    else if bytesLt k2 k then .cons k2 v2 (ConObject.insert rest k v)
    else .cons k v rest

/-- External platform services used by the codecs, modelled as abstract
byte/number transforms (the repository only decides when to call them):
zlib deflate (`zcompress`/`zdecompress` wrap it in the source), the
8-byte memory image of a `double` (`stream.write((char*)data, 8)` on a
Float node), rounding of an exactly-read decimal literal to a `double`
(`is >> d`), and the default ostream rendering of a `double` (`os << d`). -/
structure Platform : Type where
  zcompress : List Nat → List Nat
  zdecompress : List Nat → List Nat
  doubleBits : ℚ → List Nat
  bitsDouble : List Nat → ℚ
  readDouble : ℚ → ℚ
  showDouble : ℚ → List Nat

/-- Compression threshold constant of `ConValue::write`. -/
def COMPRESSION_THRESHOLD : Nat := 256

/-- Lowest compressible level (`COMPRESSION_LEVEL_MIN`). -/
def COMPRESSION_LEVEL_MIN : Nat := 0

/-- Highest compressible level (`COMPRESSION_LEVEL_MAX`). -/
def COMPRESSION_LEVEL_MAX : Nat := 0

/-- The `COMPRESS_COMPARE(size)` macro of `ConValue::write`. -/
def COMPRESS_COMPARE (size level : Nat) : Bool :=
  decide (size > COMPRESSION_THRESHOLD) &&
  decide (level ≥ COMPRESSION_LEVEL_MIN) &&
  decide (level ≤ COMPRESSION_LEVEL_MAX)

/-- Two's-complement 8-byte image of an `int64_t`. -/
def int64Bytes (n : Int) : List Nat := toLE 8 (n % 2 ^ 64).toNat

/-- Reading 8 bytes back into an `int64_t`. -/
def int64OfBytes (bs : List Nat) : Int :=
  if fromLE bs < 2 ^ 63 then (fromLE bs : Int) else (fromLE bs : Int) - 2 ^ 64

theorem int64_roundtrip (n : Int) (h1 : -(2 ^ 63) ≤ n) (h2 : n < 2 ^ 63) :
    int64OfBytes (int64Bytes n) = n := by
  unfold int64Bytes int64OfBytes
  rw [fromLE_toLE]
  have h256 : (256 : Nat) ^ 8 = 18446744073709551616 := by norm_num
  have e1 : (2 : Int) ^ 64 = 18446744073709551616 := by norm_num
  have e2 : (2 : Nat) ^ 63 = 9223372036854775808 := by norm_num
  have e3 : (2 : Int) ^ 63 = 9223372036854775808 := by norm_num
  rw [h256, e1] at *
  rw [e2]
  rw [e3] at h1 h2
  split <;> omega

/- Binary encoder, translated from ConValue::write / ConArray::write /
ConObject::write (confile.h).  Tag bytes follow the ConType enum:
Null=0, Boolean=1, Integer=2, Float=3, String=4, Array=5, Object=6.
ConValue::write first writes the tag; scalars append their fixed-width
payload.  For String, the raw bytes are the body; for Array/Object the
body is produced by the container's write at the same level (children at
level+1).  If COMPRESS_COMPARE(body.size()) holds the node is written as
flag 1, an 8-byte compressed length, and the compressed bytes; otherwise
flag 0 followed by an 8-byte length and the bytes for String, but for
Array/Object just the raw body with no length field.  A Null or invalid
tag writes nothing after the tag byte (the switch prints "Invalid type"
for them and falls through). -/
mutual
def ConValue.write (p : Platform) : ConValue → Nat → List Nat
  | .null, _ => [0]
  | .boolean b, _ => [1, if b then 1 else 0]
  | .integer n, _ => 2 :: int64Bytes n
  | .float q, _ => 3 :: p.doubleBits q
  | .string s, level =>
    if COMPRESS_COMPARE s.length level then
      4 :: 1 :: toLE 8 (p.zcompress s).length ++ p.zcompress s
    else
      4 :: 0 :: toLE 8 s.length ++ s
  | .array a, level =>
    if COMPRESS_COMPARE (toLE 8 a.length ++ ConArray.writeItems p a level).length level then
      5 :: 1 :: toLE 8 (p.zcompress (toLE 8 a.length ++ ConArray.writeItems p a level)).length ++
        p.zcompress (toLE 8 a.length ++ ConArray.writeItems p a level)
    else
      5 :: 0 :: (toLE 8 a.length ++ ConArray.writeItems p a level)
  | .object o, level =>
    if COMPRESS_COMPARE (toLE 8 o.length ++ ConObject.writeItems p o level).length level then
      6 :: 1 :: toLE 8 (p.zcompress (toLE 8 o.length ++ ConObject.writeItems p o level)).length ++
        p.zcompress (toLE 8 o.length ++ ConObject.writeItems p o level)
    else
      6 :: 0 :: (toLE 8 o.length ++ ConObject.writeItems p o level)
  | .invalid t, _ => [t % 256]
def ConArray.writeItems (p : Platform) : ConArray → Nat → List Nat
  | .nil, _ => []
  | .cons v rest, level => ConValue.write p v (level + 1) ++ ConArray.writeItems p rest level
def ConObject.writeItems (p : Platform) : ConObject → Nat → List Nat
  | .nil, _ => []
  | .cons k v rest, level =>
    toLE 8 k.length ++ k ++ ConValue.write p v (level + 1) ++ ConObject.writeItems p rest level
end

/-- ConArray::write: an 8-byte element count, then each element written
at level+1 (the level+1 happens inside the per-element loop). -/
def ConArray.write (p : Platform) (a : ConArray) (level : Nat) : List Nat :=
  toLE 8 a.length ++ ConArray.writeItems p a level

/-- ConObject::write: an 8-byte pair count, then per pair an 8-byte key
length, the key bytes, and the value written at level+1; pairs are
iterated in the map's key-sorted order. -/
def ConObject.write (p : Platform) (o : ConObject) (level : Nat) : List Nat :=
  toLE 8 o.length ++ ConObject.writeItems p o level

/- Binary decoder, translated from ConValue::read / ConArray::read /
ConObject::read (confile.h).  The C++ code performs no error checking at
all: an unknown tag byte simply leaves data null (modelled by
ConValue.invalid), and a short read leaves uninitialized memory in the
destination (modelled as none).  The fuel argument only bounds recursion
depth so the model is total; every claim quantifies over sufficient
fuel.  ConArray.readLoop mirrors ConArray::read's element loop,
ConObject.readLoop mirrors ConObject::read's pair loop, which inserts
each decoded pair into the map (values[key] = value), overwriting
duplicates. -/
mutual
def ConValue.read (p : Platform) : Nat → List Nat → Option (ConValue × List Nat)
  | 0, _ => none
  | _ + 1, [] => none
  | fuel + 1, t :: s =>
    if t = 1 then
      match s with
      | b :: s2 => some (.boolean (b ≠ 0), s2)
      | [] => none
    else if t = 2 then
      match readBytes 8 s with
      | some (bs, s2) => some (.integer (int64OfBytes bs), s2)
      | none => none
    else if t = 3 then
      match readBytes 8 s with
      | some (bs, s2) => some (.float (p.bitsDouble bs), s2)
      | none => none
    else if t = 4 then
      match s with
      | flag :: s1 =>
        match readBytes 8 s1 with
        | some (szb, s2) =>
          match readBytes (fromLE szb) s2 with
          | some (bs, s3) =>
            if flag ≠ 0 then some (.string (p.zdecompress bs), s3)
            else some (.string bs, s3)
          | none => none
        | none => none
      | [] => none
    else if t = 5 then
      match s with
      | flag :: s1 =>
        if flag ≠ 0 then
          match readBytes 8 s1 with
          | some (szb, s2) =>
            match readBytes (fromLE szb) s2 with
            | some (bs, s3) =>
              match readBytes 8 (p.zdecompress bs) with
              | some (cb, body) =>
                match ConArray.readLoop p fuel (fromLE cb) body with
                | some (a, _) => some (.array a, s3)
                | none => none
              | none => none
            | none => none
          | none => none
        else
          match readBytes 8 s1 with
          | some (cb, s2) =>
            match ConArray.readLoop p fuel (fromLE cb) s2 with
            | some (a, s3) => some (.array a, s3)
            | none => none
          | none => none
      | [] => none
    else if t = 6 then
      match s with
      | flag :: s1 =>
        if flag ≠ 0 then
          match readBytes 8 s1 with
          | some (szb, s2) =>
            match readBytes (fromLE szb) s2 with
            | some (bs, s3) =>
              match readBytes 8 (p.zdecompress bs) with
              | some (cb, body) =>
                match ConObject.readLoop p fuel (fromLE cb) .nil body with
                | some (o, _) => some (.object o, s3)
                | none => none
              | none => none
            | none => none
          | none => none
        else
          match readBytes 8 s1 with
          | some (cb, s2) =>
            match ConObject.readLoop p fuel (fromLE cb) .nil s2 with
            | some (o, s3) => some (.object o, s3)
            | none => none
          | none => none
      | [] => none
    else if t = 0 then some (.null, s)
    else some (.invalid t, s)
def ConArray.readLoop (p : Platform) : Nat → Nat → List Nat → Option (ConArray × List Nat)
  | _, 0, s => some (.nil, s)
  | 0, _ + 1, _ => none
  | fuel + 1, n + 1, s =>
    match ConValue.read p fuel s with
    | some (v, s2) =>
      match ConArray.readLoop p fuel n s2 with
      | some (a, s3) => some (.cons v a, s3)
      | none => none
    | none => none
def ConObject.readLoop (p : Platform) : Nat → Nat → ConObject → List Nat → Option (ConObject × List Nat)
  | _, 0, acc, s => some (acc, s)
  | 0, _ + 1, _, _ => none
  | fuel + 1, n + 1, acc, s =>
    match readBytes 8 s with
    | some (klb, s1) =>
      match readBytes (fromLE klb) s1 with
      | some (k, s2) =>
        match ConValue.read p fuel s2 with
        | some (v, s3) => ConObject.readLoop p fuel n (acc.insert k v) s3
        | none => none
      | none => none
    | none => none
end

/-- All keys of the object are `bytesLt`-below `k`. -/
def ConObject.allKeysLt : ConObject → List Nat → Bool
  | .nil, _ => true
  | .cons k2 _ rest, k => bytesLt k2 k && ConObject.allKeysLt rest k

/-- The `std::map` representation invariant: keys strictly increasing. -/
def ConObject.sortedKeys : ConObject → Bool
  | .nil => true
  | .cons _ _ .nil => true
  | .cons k _ (.cons k2 v2 rest) => bytesLt k k2 && ConObject.sortedKeys (.cons k2 v2 rest)

/-- Appending one entry at the end of the association list. -/
def ConObject.snoc : ConObject → List Nat → ConValue → ConObject
  | .nil, k, v => .cons k v .nil
  | .cons k2 v2 rest, k, v => .cons k2 v2 (ConObject.snoc rest k v)

/-- Concatenation of two association lists. -/
def ConObject.cat : ConObject → ConObject → ConObject
  | .nil, o => o
  | .cons k v rest, o => .cons k v (ConObject.cat rest o)

theorem bytesLt_asymm (a b : List Nat) (h : bytesLt a b = true) : bytesLt b a = false := by
  induction a generalizing b with
  | nil => cases b with
    | nil => simp [bytesLt] at h
    | cons x xs => simp [bytesLt]
  | cons x xs ih => cases b with
    | nil => simp [bytesLt] at h
    | cons y ys =>
      simp only [bytesLt] at h ⊢
      rcases Nat.lt_trichotomy x y with hxy | hxy | hxy
      · simp [hxy, Nat.lt_asymm hxy]
      · subst hxy
        simp only [Nat.lt_irrefl, if_false] at h ⊢
        exact ih ys h
      · simp [hxy, Nat.lt_asymm hxy] at h

theorem bytesLt_trans (a b c : List Nat) (h1 : bytesLt a b = true)
    (h2 : bytesLt b c = true) : bytesLt a c = true := by
  induction a generalizing b c with
  | nil => cases c with
    | nil =>
      cases b with
      | nil => exact h1
      | cons y ys => simp [bytesLt] at h2
    | cons z zs => simp [bytesLt]
  | cons x xs ih =>
    cases b with
    | nil => simp [bytesLt] at h1
    | cons y ys =>
      cases c with
      | nil => simp [bytesLt] at h2
      | cons z zs =>
        simp only [bytesLt] at h1 h2 ⊢
        rcases Nat.lt_trichotomy x y with hxy | hxy | hxy
        · rcases Nat.lt_trichotomy y z with hyz | hyz | hyz
          · simp [Nat.lt_trans hxy hyz]
          · subst hyz
            simp [hxy]
          · simp [hyz, Nat.lt_asymm hyz] at h2
        · subst hxy
          rcases Nat.lt_trichotomy x z with hxz | hxz | hxz
          · simp [hxz]
          · subst hxz
            simp only [Nat.lt_irrefl, if_false] at h1 h2 ⊢
            exact ih ys zs h1 h2
          · simp [hxz, Nat.lt_asymm hxz] at h2
        · simp [hxy, Nat.lt_asymm hxy] at h1

theorem insert_of_allKeysLt : ∀ (acc : ConObject) (k : List Nat) (v : ConValue),
    acc.allKeysLt k = true → acc.insert k v = acc.snoc k v
  | .nil, _, _, _ => rfl
  | .cons k2 v2 rest, k, v, h => by
    simp only [ConObject.allKeysLt, Bool.and_eq_true] at h
    simp only [ConObject.insert, ConObject.snoc, bytesLt_asymm k2 k h.1, h.1]
    simp [insert_of_allKeysLt rest k v h.2]

theorem allKeysLt_snoc : ∀ (acc : ConObject) (k k2 : List Nat) (v : ConValue),
    (acc.snoc k v).allKeysLt k2 = (acc.allKeysLt k2 && bytesLt k k2)
  | .nil, k, k2, v => by simp [ConObject.snoc, ConObject.allKeysLt]
  | .cons k3 v3 rest, k, k2, v => by
    simp only [ConObject.snoc, ConObject.allKeysLt, allKeysLt_snoc rest k k2 v]
    cases bytesLt k3 k2 <;> simp

theorem cat_snoc : ∀ (acc : ConObject) (k : List Nat) (v : ConValue) (o : ConObject),
    (acc.snoc k v).cat o = acc.cat (.cons k v o)
  | .nil, _, _, _ => rfl
  | .cons k2 v2 rest, k, v, o => by
    simp [ConObject.snoc, ConObject.cat, cat_snoc rest k v o]

theorem cat_nil : ∀ acc : ConObject, acc.cat .nil = acc
  | .nil => rfl
  | .cons k v rest => by simp [ConObject.cat, cat_nil rest]

/- Well-formedness of a value constructible through the C++ API: no
invalid tag, int64 payloads in range, container/string/key sizes
representable in the 8-byte size fields, and object keys strictly sorted
and unique (automatic for std::map). -/
mutual
def ConValue.wfBin : ConValue → Bool
  | .null => true
  | .boolean _ => true
  | .integer n => decide (-(2 ^ 63) ≤ n) && decide (n < 2 ^ 63)
  | .float _ => true
  | .string s => decide (s.length < 2 ^ 64)
  | .array a => decide (a.length < 2 ^ 64) && ConArray.wfItemsBin a
  | .object o => decide (o.length < 2 ^ 64) && o.sortedKeys && ConObject.wfItemsBin o
  | .invalid _ => false
def ConArray.wfItemsBin : ConArray → Bool
  | .nil => true
  | .cons v rest => v.wfBin && ConArray.wfItemsBin rest
def ConObject.wfItemsBin : ConObject → Bool
  | .nil => true
  | .cons k v rest => decide (k.length < 2 ^ 64) && v.wfBin && ConObject.wfItemsBin rest
end

/- Fuel sufficient to decode one value: one unit per ConValue::read call
plus one per loop iteration. -/
mutual
def ConValue.rdepth : ConValue → Nat
  | .array a => ConArray.afuel a + 1
  | .object o => ConObject.ofuel o + 1
  | _ => 1
def ConArray.afuel : ConArray → Nat
  | .nil => 0
  | .cons v rest => max v.rdepth (ConArray.afuel rest) + 1
def ConObject.ofuel : ConObject → Nat
  | .nil => 0
  | .cons _ v rest => max v.rdepth (ConObject.ofuel rest) + 1
end

theorem fromLE_toLE8 (n : Nat) (h : n < 2 ^ 64) : fromLE (toLE 8 n) = n := by
  rw [fromLE_toLE]
  have h256 : (256 : Nat) ^ 8 = 2 ^ 64 := by norm_num
  rw [h256]
  omega

theorem allKeysLt_mono : ∀ (acc : ConObject) (k k2 : List Nat),
    acc.allKeysLt k = true → bytesLt k k2 = true → acc.allKeysLt k2 = true
  | .nil, _, _, _, _ => rfl
  | .cons k3 _ rest, k, k2, h, hlt => by
    simp only [ConObject.allKeysLt, Bool.and_eq_true] at h ⊢
    exact ⟨bytesLt_trans k3 k k2 h.1 hlt, allKeysLt_mono rest k k2 h.2 hlt⟩

/-- Every key of `acc` is below the first key of `o` (vacuous when `o` is
empty): the invariant that makes the decode loop's map insertions append
in order. -/
def ConObject.fits (acc : ConObject) : ConObject → Bool
  | .nil => true
  | .cons k _ _ => acc.allKeysLt k

theorem nil_fits : ∀ o : ConObject, ConObject.fits .nil o = true
  | .nil => rfl
  | .cons _ _ _ => rfl

theorem readBytes_of_length (k : Nat) (xs tail : List Nat) (h : xs.length = k) :
    readBytes k (xs ++ tail) = some (xs, tail) := by
  subst h
  exact readBytes_append xs tail

/- Round trip of the binary codec, stated for the writer and reader at
any level and with any sufficient fuel.  The hz hypotheses are the
contract of the external DEFLATE service (decompress inverts compress,
compressed sizes fit the 8-byte length field); hd8/hdi are the
contract of the platform's 8-byte double memory image. -/
mutual
theorem ConValue.read_write (p : Platform)
    (hz1 : ∀ bs, p.zdecompress (p.zcompress bs) = bs)
    (hz2 : ∀ bs, (p.zcompress bs).length < 2 ^ 64)
    (hd8 : ∀ q, (p.doubleBits q).length = 8)
    (hdi : ∀ q, p.bitsDouble (p.doubleBits q) = q) :
    ∀ (v : ConValue) (level fuel : Nat) (rest : List Nat),
      v.wfBin = true → v.rdepth ≤ fuel →
      ConValue.read p fuel (ConValue.write p v level ++ rest) = some (v, rest)
  | .null, level, fuel, rest, _, hfuel => by
    obtain ⟨f, rfl⟩ : ∃ f, fuel = f + 1 :=
      ⟨fuel - 1, by simp [ConValue.rdepth] at hfuel; omega⟩
    simp [ConValue.write, ConValue.read]
  | .boolean b, level, fuel, rest, _, hfuel => by
    obtain ⟨f, rfl⟩ : ∃ f, fuel = f + 1 :=
      ⟨fuel - 1, by simp [ConValue.rdepth] at hfuel; omega⟩
    cases b <;> simp [ConValue.write, ConValue.read]
  | .integer n, level, fuel, rest, hwf, hfuel => by
    obtain ⟨f, rfl⟩ : ∃ f, fuel = f + 1 :=
      ⟨fuel - 1, by simp [ConValue.rdepth] at hfuel; omega⟩
    simp only [ConValue.wfBin, Bool.and_eq_true, decide_eq_true_eq] at hwf
    have h8 : (int64Bytes n).length = 8 := toLE_length 8 _
    simp only [ConValue.write, List.cons_append]
    simp only [ConValue.read]
    rw [readBytes_of_length 8 (int64Bytes n) rest h8]
    simp [int64_roundtrip n hwf.1 hwf.2]
  | .float q, level, fuel, rest, _, hfuel => by
    obtain ⟨f, rfl⟩ : ∃ f, fuel = f + 1 :=
      ⟨fuel - 1, by simp [ConValue.rdepth] at hfuel; omega⟩
    simp only [ConValue.write, List.cons_append]
    simp only [ConValue.read]
    rw [readBytes_of_length 8 (p.doubleBits q) rest (hd8 q)]
    simp [hdi q]
  | .string s, level, fuel, rest, hwf, hfuel => by
    obtain ⟨f, rfl⟩ : ∃ f, fuel = f + 1 :=
      ⟨fuel - 1, by simp [ConValue.rdepth] at hfuel; omega⟩
    simp only [ConValue.wfBin, decide_eq_true_eq] at hwf
    cases hcc : COMPRESS_COMPARE s.length level with
    | true =>
      simp only [ConValue.write, hcc, if_true, List.cons_append, List.append_assoc]
      simp only [ConValue.read]
      rw [readBytes_of_length 8 (toLE 8 (p.zcompress s).length) _ (toLE_length 8 _)]
      simp [fromLE_toLE8 _ (hz2 s), readBytes_of_length _ (p.zcompress s) rest rfl, hz1 s]
    | false =>
      simp only [ConValue.write, hcc, Bool.false_eq_true, if_false, List.cons_append,
        List.append_assoc]
      simp only [ConValue.read]
      rw [readBytes_of_length 8 (toLE 8 s.length) _ (toLE_length 8 _)]
      simp [fromLE_toLE8 _ hwf, readBytes_of_length _ s rest rfl]
  | .array a, level, fuel, rest, hwf, hfuel => by
    obtain ⟨f, rfl⟩ : ∃ f, fuel = f + 1 :=
      ⟨fuel - 1, by simp [ConValue.rdepth] at hfuel; omega⟩
    have hf2 : a.afuel ≤ f := by simp [ConValue.rdepth] at hfuel; omega
    simp only [ConValue.wfBin, Bool.and_eq_true, decide_eq_true_eq] at hwf
    cases hcc : COMPRESS_COMPARE (toLE 8 a.length ++ ConArray.writeItems p a level).length level with
    | true =>
      simp only [ConValue.write, hcc, if_true, List.cons_append, List.append_assoc]
      simp only [ConValue.read]
      have hloop := arrayReadLoop_writeItems p hz1 hz2 hd8 hdi a level f [] hwf.2 hf2
      rw [List.append_nil] at hloop
      rw [readBytes_of_length 8
        (toLE 8 (p.zcompress (toLE 8 a.length ++ ConArray.writeItems p a level)).length) _
        (toLE_length 8 _)]
      simp [fromLE_toLE8 _ (hz2 _),
        readBytes_of_length _ (p.zcompress (toLE 8 a.length ++ ConArray.writeItems p a level))
          rest rfl,
        hz1,
        readBytes_of_length 8 (toLE 8 a.length) (ConArray.writeItems p a level) (toLE_length 8 _),
        fromLE_toLE8 _ hwf.1, hloop]
    | false =>
      simp only [ConValue.write, hcc, Bool.false_eq_true, if_false, List.cons_append,
        List.append_assoc]
      simp only [ConValue.read]
      rw [readBytes_of_length 8 (toLE 8 a.length) (ConArray.writeItems p a level ++ rest)
        (toLE_length 8 _)]
      simp [fromLE_toLE8 _ hwf.1,
        arrayReadLoop_writeItems p hz1 hz2 hd8 hdi a level f rest hwf.2 hf2]
  | .object o, level, fuel, rest, hwf, hfuel => by
    obtain ⟨f, rfl⟩ : ∃ f, fuel = f + 1 :=
      ⟨fuel - 1, by simp [ConValue.rdepth] at hfuel; omega⟩
    have hf2 : o.ofuel ≤ f := by simp [ConValue.rdepth] at hfuel; omega
    simp only [ConValue.wfBin, Bool.and_eq_true, decide_eq_true_eq] at hwf
    cases hcc : COMPRESS_COMPARE (toLE 8 o.length ++ ConObject.writeItems p o level).length level with
    | true =>
      simp only [ConValue.write, hcc, if_true, List.cons_append, List.append_assoc]
      simp only [ConValue.read]
      have hloop := objectReadLoop_writeItems p hz1 hz2 hd8 hdi o .nil level f []
        hwf.2 hwf.1.2 (nil_fits o) hf2
      rw [List.append_nil] at hloop
      rw [readBytes_of_length 8
        (toLE 8 (p.zcompress (toLE 8 o.length ++ ConObject.writeItems p o level)).length) _
        (toLE_length 8 _)]
      simp [fromLE_toLE8 _ (hz2 _),
        readBytes_of_length _ (p.zcompress (toLE 8 o.length ++ ConObject.writeItems p o level))
          rest rfl,
        hz1,
        readBytes_of_length 8 (toLE 8 o.length) (ConObject.writeItems p o level) (toLE_length 8 _),
        fromLE_toLE8 _ hwf.1.1, hloop, ConObject.cat]
    | false =>
      simp only [ConValue.write, hcc, Bool.false_eq_true, if_false, List.cons_append,
        List.append_assoc]
      simp only [ConValue.read]
      rw [readBytes_of_length 8 (toLE 8 o.length) (ConObject.writeItems p o level ++ rest)
        (toLE_length 8 _)]
      simp [fromLE_toLE8 _ hwf.1.1,
        objectReadLoop_writeItems p hz1 hz2 hd8 hdi o .nil level f rest
          hwf.2 hwf.1.2 (nil_fits o) hf2,
        ConObject.cat]
  | .invalid t, level, fuel, rest, hwf, _ => by
    simp [ConValue.wfBin] at hwf
theorem arrayReadLoop_writeItems (p : Platform)
    (hz1 : ∀ bs, p.zdecompress (p.zcompress bs) = bs)
    (hz2 : ∀ bs, (p.zcompress bs).length < 2 ^ 64)
    (hd8 : ∀ q, (p.doubleBits q).length = 8)
    (hdi : ∀ q, p.bitsDouble (p.doubleBits q) = q) :
    ∀ (a : ConArray) (level fuel : Nat) (rest : List Nat),
      a.wfItemsBin = true → a.afuel ≤ fuel →
      ConArray.readLoop p fuel a.length (ConArray.writeItems p a level ++ rest) =
        some (a, rest)
  | .nil, level, fuel, rest, _, _ => by
    simp [ConArray.readLoop, ConArray.writeItems, ConArray.length]
  | .cons v a2, level, fuel, rest, hwf, hfuel => by
    obtain ⟨f, rfl⟩ : ∃ f, fuel = f + 1 :=
      ⟨fuel - 1, by simp [ConArray.afuel] at hfuel; omega⟩
    simp only [ConArray.afuel] at hfuel
    simp only [ConArray.wfItemsBin, Bool.and_eq_true] at hwf
    simp only [ConArray.writeItems, ConArray.length, List.append_assoc]
    simp only [ConArray.readLoop]
    simp [ConValue.read_write p hz1 hz2 hd8 hdi v (level + 1) f
        (ConArray.writeItems p a2 level ++ rest) hwf.1 (by omega),
      arrayReadLoop_writeItems p hz1 hz2 hd8 hdi a2 level f rest hwf.2 (by omega)]
theorem objectReadLoop_writeItems (p : Platform)
    (hz1 : ∀ bs, p.zdecompress (p.zcompress bs) = bs)
    (hz2 : ∀ bs, (p.zcompress bs).length < 2 ^ 64)
    (hd8 : ∀ q, (p.doubleBits q).length = 8)
    (hdi : ∀ q, p.bitsDouble (p.doubleBits q) = q) :
    ∀ (o acc : ConObject) (level fuel : Nat) (rest : List Nat),
      o.wfItemsBin = true → o.sortedKeys = true → acc.fits o = true → o.ofuel ≤ fuel →
      ConObject.readLoop p fuel o.length acc (ConObject.writeItems p o level ++ rest) =
        some (acc.cat o, rest)
  | .nil, acc, level, fuel, rest, _, _, _, _ => by
    simp [ConObject.readLoop, ConObject.writeItems, ConObject.length, cat_nil]
  | .cons k v o2, acc, level, fuel, rest, hwf, hsort, hfit, hfuel => by
    obtain ⟨f, rfl⟩ : ∃ f, fuel = f + 1 :=
      ⟨fuel - 1, by simp [ConObject.ofuel] at hfuel; omega⟩
    simp only [ConObject.ofuel] at hfuel
    simp only [ConObject.wfItemsBin, Bool.and_eq_true, decide_eq_true_eq] at hwf
    simp only [ConObject.fits] at hfit
    have hsort2 : o2.sortedKeys = true := by
      cases o2 with
      | nil => rfl
      | cons k2 v2 o3 =>
        simp only [ConObject.sortedKeys, Bool.and_eq_true] at hsort
        exact hsort.2
    have hfit2 : (acc.snoc k v).fits o2 = true := by
      cases o2 with
      | nil => rfl
      | cons k2 v2 o3 =>
        simp only [ConObject.sortedKeys, Bool.and_eq_true] at hsort
        simp only [ConObject.fits, allKeysLt_snoc, Bool.and_eq_true]
        exact ⟨allKeysLt_mono acc k k2 hfit hsort.1, hsort.1⟩
    have hrec := objectReadLoop_writeItems p hz1 hz2 hd8 hdi o2 (acc.snoc k v) level f rest
      hwf.2 hsort2 hfit2 (by omega)
    simp only [ConObject.writeItems, ConObject.length, List.append_assoc]
    simp only [ConObject.readLoop]
    rw [readBytes_of_length 8 (toLE 8 k.length) _ (toLE_length 8 _)]
    simp [fromLE_toLE8 _ hwf.1.1, readBytes_of_length _ k _ rfl,
      ConValue.read_write p hz1 hz2 hd8 hdi v (level + 1) f
        (ConObject.writeItems p o2 level ++ rest) hwf.1.2 (by omega),
      insert_of_allKeysLt acc k v hfit, hrec, cat_snoc]
end

/-- Injective packing of a byte list into one number; used only to build
a concrete `Platform` whose transforms satisfy the external-service
contracts (the model's stream elements are unbounded naturals). -/
def natOfBytes : List Nat → Nat
  | [] => 0
  | b :: bs => Nat.pair b (natOfBytes bs) + 1

/-- Inverse of `natOfBytes`. -/
def bytesOfNat : Nat → List Nat
  | 0 => []
  | n + 1 => (Nat.unpair n).1 :: bytesOfNat (Nat.unpair n).2
decreasing_by
  have := Nat.unpair_right_le n
  omega

theorem bytesOfNat_natOfBytes : ∀ bs, bytesOfNat (natOfBytes bs) = bs
  | [] => by simp [natOfBytes, bytesOfNat]
  | b :: bs => by
    simp [natOfBytes, bytesOfNat, Nat.unpair_pair, bytesOfNat_natOfBytes bs]

/-- Injective packing of an integer into a natural. -/
def natOfInt : Int → Nat
  | .ofNat n => 2 * n
  | .negSucc n => 2 * n + 1

/-- Inverse of `natOfInt`. -/
def intOfNat (n : Nat) : Int :=
  if n % 2 = 0 then Int.ofNat (n / 2) else Int.negSucc (n / 2)

theorem intOfNat_natOfInt : ∀ i, intOfNat (natOfInt i) = i
  | .ofNat n => by
    simp only [natOfInt, intOfNat, Nat.mul_mod_right]
    norm_num
  | .negSucc n => by
    have h1 : (2 * n + 1) % 2 = 1 := by omega
    have h2 : (2 * n + 1) / 2 = n := by omega
    simp [natOfInt, intOfNat, h1, h2]

/-- Injective packing of a rational into a natural. -/
def natOfRat (q : ℚ) : Nat := Nat.pair (natOfInt q.num) q.den

/-- Inverse of `natOfRat`. -/
def ratOfNat (n : Nat) : ℚ := mkRat (intOfNat (Nat.unpair n).1) (Nat.unpair n).2

theorem ratOfNat_natOfRat (q : ℚ) : ratOfNat (natOfRat q) = q := by
  simp [natOfRat, ratOfNat, Nat.unpair_pair, intOfNat_natOfInt]

/-- A concrete platform whose transforms satisfy the external-service
contracts assumed by the round-trip theorems. -/
def pairPlatform : Platform where
  zcompress := fun bs => [natOfBytes bs]
  zdecompress := fun bs => match bs with | [n] => bytesOfNat n | _ => []
  doubleBits := fun q => natOfRat q :: List.replicate 7 0
  bitsDouble := fun bs => match bs with | n :: _ => ratOfNat n | _ => 0
  readDouble := id
  showDouble := fun _ => []

theorem pairPlatform_hz1 : ∀ bs, pairPlatform.zdecompress (pairPlatform.zcompress bs) = bs := by
  intro bs
  simp [pairPlatform, bytesOfNat_natOfBytes]

theorem pairPlatform_hz2 : ∀ bs, (pairPlatform.zcompress bs).length < 2 ^ 64 := by
  intro bs
  simp [pairPlatform]

theorem pairPlatform_hd8 : ∀ q : ℚ, (pairPlatform.doubleBits q).length = 8 := by
  intro q
  simp [pairPlatform]

theorem pairPlatform_hdi : ∀ q : ℚ, pairPlatform.bitsDouble (pairPlatform.doubleBits q) = q := by
  intro q
  simp [pairPlatform, ratOfNat_natOfRat]

/-- C1: Binary round trip: for every constructible Value v, decoding the
bytes produced by encoding v (ConValue::write then ConValue::read, with
the default configuration) yields a Value equal to v; Object key order
is already sorted in every constructible value (std::map), so equality
up to sorting is plain equality.  The hz/hd hypotheses are the contracts
of the external DEFLATE service and of the platform's 8-byte double
image; wfBin states constructibility (no invalid tag, int64 in range,
sizes within the 8-byte length fields, map keys sorted and unique). -/
theorem c1_binary_roundtrip (p : Platform) (v : ConValue) (fuel : Nat)
    (hz1 : ∀ bs, p.zdecompress (p.zcompress bs) = bs)
    (hz2 : ∀ bs, (p.zcompress bs).length < 2 ^ 64)
    (hd8 : ∀ q, (p.doubleBits q).length = 8)
    (hdi : ∀ q, p.bitsDouble (p.doubleBits q) = q)
    (hwf : v.wfBin = true) (hfuel : v.rdepth ≤ fuel) :
    ConValue.read p fuel (ConValue.write p v 0) = some (v, []) := by
  have h := ConValue.read_write p hz1 hz2 hd8 hdi v 0 fuel [] hwf hfuel
  rwa [List.append_nil] at h

/-- Witness for C1 at a concrete value: an object holding a float, an
integer and a nested array, encoded and decoded with a platform whose
transforms satisfy the external contracts. -/
theorem c1_binary_roundtrip_witness :
    ConValue.read pairPlatform 10
      (ConValue.write pairPlatform
        (.object (.cons [97] (.float (1 / 2)) (.cons [98]
          (.array (.cons (.integer (-5)) (.cons .null .nil))) .nil))) 0) =
    some (.object (.cons [97] (.float (1 / 2)) (.cons [98]
      (.array (.cons (.integer (-5)) (.cons .null .nil))) .nil)), []) :=
  c1_binary_roundtrip pairPlatform _ 10
    pairPlatform_hz1 pairPlatform_hz2 pairPlatform_hd8 pairPlatform_hdi
    (by decide) (by decide)

/-- C2: Compression eligibility: a String/Array/Object node's flag byte
(position 1 of its encoding) is 1 exactly when the serialized body
exceeds 256 bytes and the node's level lies in
[LEVEL_MIN, LEVEL_MAX]; with the default bounds 0,0 only level 0
qualifies; a body of 256 bytes or fewer always gets flag 0; and the
10000-byte string nested one level deep inside an array is stored
uncompressed (flag 0) in the array body regardless of its size. -/
theorem c2_compression_eligibility :
    (∀ size level, COMPRESS_COMPARE size level = true ↔
       (size > COMPRESSION_THRESHOLD ∧ COMPRESSION_LEVEL_MIN ≤ level ∧
        level ≤ COMPRESSION_LEVEL_MAX)) ∧
    (COMPRESSION_THRESHOLD = 256 ∧ COMPRESSION_LEVEL_MIN = 0 ∧ COMPRESSION_LEVEL_MAX = 0) ∧
    (∀ size level, COMPRESS_COMPARE size level = true ↔ (256 < size ∧ level = 0)) ∧
    (∀ level, COMPRESS_COMPARE 256 level = false) ∧
    (∀ (p : Platform) (s : List Nat) (level : Nat),
       (ConValue.write p (.string s) level).get? 1 =
         some (if COMPRESS_COMPARE s.length level then 1 else 0)) ∧
    (∀ (p : Platform) (a : ConArray) (level : Nat),
       (ConValue.write p (.array a) level).get? 1 =
         some (if COMPRESS_COMPARE (ConArray.write p a level).length level then 1 else 0)) ∧
    (∀ (p : Platform) (o : ConObject) (level : Nat),
       (ConValue.write p (.object o) level).get? 1 =
         some (if COMPRESS_COMPARE (ConObject.write p o level).length level then 1 else 0)) ∧
    (∀ p : Platform,
       ConArray.write p (.cons (.string (List.replicate 10000 120)) .nil) 0 =
         toLE 8 1 ++ 4 :: 0 :: (toLE 8 10000 ++ List.replicate 10000 120)) := by
  refine ⟨?_, ⟨rfl, rfl, rfl⟩, ?_, ?_, ?_, ?_, ?_, ?_⟩
  · intro size level
    simp [COMPRESS_COMPARE, and_assoc]
  · intro size level
    simp [COMPRESS_COMPARE, COMPRESSION_THRESHOLD, COMPRESSION_LEVEL_MIN,
      COMPRESSION_LEVEL_MAX]
  · intro level
    simp [COMPRESS_COMPARE, COMPRESSION_THRESHOLD]
  · intro p s level
    cases h : COMPRESS_COMPARE s.length level <;> simp [ConValue.write, h]
  · intro p a level
    simp only [ConArray.write]
    rcases Bool.eq_false_or_eq_true
        (COMPRESS_COMPARE (toLE 8 a.length ++ ConArray.writeItems p a level).length level)
      with h | h <;> rw [List.length_append] at h <;> simp [ConValue.write, h]
  · intro p o level
    simp only [ConObject.write]
    rcases Bool.eq_false_or_eq_true
        (COMPRESS_COMPARE (toLE 8 o.length ++ ConObject.writeItems p o level).length level)
      with h | h <;> rw [List.length_append] at h <;> simp [ConValue.write, h]
  · intro p
    have hcc : COMPRESS_COMPARE 10000 1 = false := by decide
    simp only [ConArray.write, ConArray.writeItems, ConValue.write, ConArray.length,
      List.length_replicate, hcc, Bool.false_eq_true, if_false, List.append_nil,
      Nat.zero_add, List.cons_append, List.append_assoc]

/-- C3: Uncompressed-container framing asymmetry: an uncompressed Array
or Object is encoded as tag, flag 0, then the raw body with no length
field, whereas an uncompressed String has an 8-byte length between the
flag and the bytes; on decode, an uncompressed Array/Object body is read
directly from the live stream with no length field. -/
theorem c3_uncompressed_framing :
    (∀ (p : Platform) (a : ConArray) (level : Nat),
       COMPRESS_COMPARE (ConArray.write p a level).length level = false →
       ConValue.write p (.array a) level = 5 :: 0 :: ConArray.write p a level) ∧
    (∀ (p : Platform) (o : ConObject) (level : Nat),
       COMPRESS_COMPARE (ConObject.write p o level).length level = false →
       ConValue.write p (.object o) level = 6 :: 0 :: ConObject.write p o level) ∧
    (∀ (p : Platform) (s : List Nat) (level : Nat),
       COMPRESS_COMPARE s.length level = false →
       ConValue.write p (.string s) level = 4 :: 0 :: (toLE 8 s.length ++ s)) ∧
    (∀ (p : Platform) (fuel : Nat) (s : List Nat),
       ConValue.read p (fuel + 1) (5 :: 0 :: s) =
         match readBytes 8 s with
         | some (cb, s2) =>
           match ConArray.readLoop p fuel (fromLE cb) s2 with
           | some (a, s3) => some (ConValue.array a, s3)
           | none => none
         | none => none) ∧
    (∀ (p : Platform) (fuel : Nat) (s : List Nat),
       ConValue.read p (fuel + 1) (6 :: 0 :: s) =
         match readBytes 8 s with
         | some (cb, s2) =>
           match ConObject.readLoop p fuel (fromLE cb) .nil s2 with
           | some (o, s3) => some (ConValue.object o, s3)
           | none => none
         | none => none) := by
  refine ⟨?_, ?_, ?_, ?_, ?_⟩
  · intro p a level h
    simp [ConArray.write] at h
    simp [ConValue.write, ConArray.write, h]
  · intro p o level h
    simp [ConObject.write] at h
    simp [ConValue.write, ConObject.write, h]
  · intro p s level h
    simp [ConValue.write, h]
  · intro p fuel s
    simp [ConValue.read]
  · intro p fuel s
    simp [ConValue.read]

/-- Witness for C3 at concrete inputs: the empty array is framed as
[5, 0, count] with no body length, and decoding, with no length field,
resumes on the live stream right after the 8-byte count. -/
theorem c3_uncompressed_framing_witness :
    ConValue.write pairPlatform (.array .nil) 0 = 5 :: 0 :: ConArray.write pairPlatform .nil 0 ∧
    ConValue.read pairPlatform 2 (5 :: 0 :: toLE 8 0) =
      match readBytes 8 (toLE 8 0) with
      | some (cb, s2) =>
        match ConArray.readLoop pairPlatform 1 (fromLE cb) s2 with
        | some (a, s3) => some (ConValue.array a, s3)
        | none => none
      | none => none :=
  ⟨c3_uncompressed_framing.1 pairPlatform .nil 0 (by decide),
   c3_uncompressed_framing.2.2.2.1 pairPlatform 1 (toLE 8 0)⟩

/-- C6 (code bug): the decoder accepts a malformed stream instead of
reporting a DecodeError: a tag byte outside the seven known tags (here
7) is consumed without any error, leaving a value whose type field holds
the unknown tag and whose data is null; ConValue::read has no error
reporting at all. -/
theorem c6_unknown_tag_accepted :
    ConValue.read pairPlatform 1 [7] = some (.invalid 7, []) ∧
    ConValue.read pairPlatform 1 [200] = some (.invalid 200, []) := ⟨rfl, rfl⟩

/- Text codec.  The printer is translated from the operator<< overloads
and the parser from the operator>> overloads of confile.h.  Text streams
are byte lists; whitespace is space/LF/tab/CR as in eliminateWhitespace.
Parser results: ok carries the value and the remaining stream; fail
models the stream's failbit being set when the overload returns (the
C++ code may additionally leave a partially filled out-parameter, which
a caller must not use); out means the fuel bound was reached and models
non-termination of the corresponding C++ loop, which consumes no input
at that point. -/
inductive PRes (α : Type) : Type where
  | ok : α → PRes α
  | fail : PRes α
  | out : PRes α
deriving DecidableEq

/-- Whitespace set of `eliminateWhitespace` (space, LF, tab, CR). -/
def isConWs (c : Nat) : Bool := c == 32 || c == 10 || c == 9 || c == 13

/-- eliminateWhitespace: gets characters until a non-whitespace one and
puts it back. -/
def eliminateWhitespace (s : List Nat) : List Nat := s.dropWhile isConWs

/-- A formatted `is >> c` read: skip whitespace, then extract one
character; fails (failbit) at end of stream. -/
def next (s : List Nat) : Option (Nat × List Nat) :=
  match eliminateWhitespace s with
  | [] => none
  | c :: r => some (c, r)

/-- Decimal digits of a natural, most significant first (`os << n`). -/
def natDecAux : Nat → Nat → List Nat
  | 0, _ => []
  | fuel + 1, n => if n < 10 then [48 + n] else natDecAux fuel (n / 10) ++ [48 + n % 10]

/-- Decimal rendering of a natural. -/
def natDec (n : Nat) : List Nat := natDecAux (n + 1) n

/-- Decimal rendering of an `int64_t` by `os <<`. -/
def intDec : Int → List Nat
  | .ofNat n => natDec n
  | .negSucc m => 45 :: natDec (m + 1)

/-- The string-scanning loop of the `'"'` branch of
operator>>(istream&, ConValue&): get characters until one equals `'"'`.
At end of input `is.get` fails and leaves `c` (the previously read
character, tracked as `last`) unchanged, so with `last = '"'` the loop
breaks with the failbit set, and otherwise it repeats forever appending
`last` — modelled by recursing on the same empty stream until the fuel
runs out. -/
def scanString : Nat → Nat → List Nat → PRes (List Nat × List Nat)
  | _, 0, _ => .out
  | last, fuel + 1, [] => if last == 34 then .fail else scanString last fuel []
  | _, fuel + 1, c :: r =>
    if c == 34 then .ok ([], r)
    else
      match scanString c fuel r with
      | .ok (str, rest) => .ok (c :: str, rest)
      | .fail => .fail
      | .out => .out

/-- ASCII decimal digit test. -/
def isDigit (c : Nat) : Bool := decide (48 ≤ c ∧ c ≤ 57)

/-- Numeric value of a run of decimal digit bytes. -/
def digitsVal (ds : List Nat) : Nat := ds.foldl (fun a d => a * 10 + (d - 48)) 0

/-- The characters `is >> d` extracts for a double and their exact
decimal value: optional sign, integer digits, optional fraction,
optional exponent; no digits at all is an extraction failure (failbit,
modelled as none).  The value is exact here; the caller applies the
platform's binary64 rounding. -/
def numToken (s : List Nat) : Option (ℚ × List Nat) :=
  let s1 := if s.head? = some 45 ∨ s.head? = some 43 then s.tail else s
  let ip := s1.takeWhile isDigit
  let s2 := s1.dropWhile isDigit
  let fr := if s2.head? = some 46 then s2.tail.takeWhile isDigit else []
  let s3 := if s2.head? = some 46 then s2.tail.dropWhile isDigit else s2
  if ip.isEmpty && fr.isEmpty then none
  else
    let mant : Int :=
      (if s.head? = some 45 then -1 else 1) *
        ((digitsVal ip * 10 ^ fr.length + digitsVal fr : Nat) : Int)
    if s3.head? = some 101 ∨ s3.head? = some 69 then
      let r2 := s3.tail
      let r3 := if r2.head? = some 45 ∨ r2.head? = some 43 then r2.tail else r2
      let ed := r3.takeWhile isDigit
      let r5 := r3.dropWhile isDigit
      if ed.isEmpty then none
      else if r2.head? = some 45 then
        some (mkRat mant (10 ^ fr.length * 10 ^ digitsVal ed), r5)
      else some (mkRat (mant * 10 ^ digitsVal ed) (10 ^ fr.length), r5)
    else some (mkRat mant (10 ^ fr.length), s3)

/-- The number branch of operator>>(istream&, ConValue&): read a double;
if it equals its `int64_t` truncation store an Integer, else a Float. -/
def parseNumber (p : Platform) (s : List Nat) : PRes (ConValue × List Nat) :=
  match numToken s with
  | none => .fail
  | some (q, rest) =>
    let d := p.readDouble q
    if d.den = 1 then .ok (.integer d.num, rest) else .ok (.float d, rest)

/- Recursive-descent parser: operator>> for ConValue, ConArray and
ConObject.  Each function spends one unit of fuel per call; out models
the non-terminating executions of the source.  The 'n' branch of the
value parser sets the type to Null and consumes nothing (the dispatch
character was put back and the branch body reads nothing); the 't'/'f'
branches consume exactly 4/5 characters without verifying them; a
failing consume (end of stream) sets the failbit. -/
mutual
def conValueParse (p : Platform) : Nat → List Nat → PRes (ConValue × List Nat)
  | 0, _ => .out
  | fuel + 1, s0 =>
    match eliminateWhitespace s0 with
    | [] => .fail
    | c :: r =>
      if c == 110 then .ok (.null, c :: r)
      else if c == 116 then
        if 3 ≤ r.length then .ok (.boolean true, r.drop 3) else .fail
      else if c == 102 then
        if 4 ≤ r.length then .ok (.boolean false, r.drop 4) else .fail
      else if c == 34 then
        match scanString 34 fuel r with
        | .ok (str, rest) => .ok (.string str, rest)
        | .fail => .fail
        | .out => .out
      else if c == 91 then
        match conArrayParse p fuel (c :: r) with
        | .ok (a, rest) => .ok (.array a, rest)
        | .fail => .fail
        | .out => .out
      else if c == 123 then
        match conObjectParse p fuel (c :: r) with
        | .ok (o, rest) => .ok (.object o, rest)
        | .fail => .fail
        | .out => .out
      else parseNumber p (c :: r)
def conArrayParse (p : Platform) : Nat → List Nat → PRes (ConArray × List Nat)
  | 0, _ => .out
  | fuel + 1, s =>
    match next s with
    | none => .fail
    | some (c, s1) =>
      if c != 91 then .fail
      else
        match next s1 with
        | none => .fail
        | some (c2, s2) =>
          if c2 == 93 then .ok (.nil, eliminateWhitespace s2)
          else conArrayLoop p fuel (c2 :: s2)
def conArrayLoop (p : Platform) : Nat → List Nat → PRes (ConArray × List Nat)
  | 0, _ => .out
  | fuel + 1, s =>
    match conValueParse p fuel s with
    | .ok (v, s1) =>
      match next s1 with
      | none => .fail
      | some (c, s2) =>
        if c == 93 then .ok (.cons v .nil, s2)
        else if c == 44 then
          match conArrayLoop p fuel s2 with
          | .ok (a, s3) => .ok (.cons v a, s3)
          | .fail => .fail
          | .out => .out
        else .fail
    | .fail => .fail
    | .out => .out
def conObjectParse (p : Platform) : Nat → List Nat → PRes (ConObject × List Nat)
  | 0, _ => .out
  | fuel + 1, s =>
    match next s with
    | none => .fail
    | some (c, s1) =>
      if c != 123 then .fail
      else
        match next s1 with
        | none => .fail
        | some (c2, s2) =>
          if c2 == 125 then .ok (.nil, eliminateWhitespace s2)
          else conObjectLoop p fuel .nil (c2 :: s2)
def conObjectLoop (p : Platform) : Nat → ConObject → List Nat → PRes (ConObject × List Nat)
  | 0, _, _ => .out
  | fuel + 1, acc, s =>
    match next s with
    | none => .fail
    | some (c, s1) =>
      if c != 34 then .fail
      else
        match s1.dropWhile (fun b => !(b == 34)) with
        | [] => .fail
        | _ :: s3 =>
          match next s3 with
          | none => .fail
          | some (c2, s4) =>
            if c2 != 58 then .fail
            else
              match conValueParse p fuel s4 with
              | .ok (v, s5) =>
                match next s5 with
                | none => .fail
                | some (c3, s6) =>
                  if c3 == 125 then
                    .ok (acc.insert (s1.takeWhile (fun b => !(b == 34))) v, s6)
                  else if c3 == 44 then
                    conObjectLoop p fuel (acc.insert (s1.takeWhile (fun b => !(b == 34))) v) s6
                  else .fail
              | .fail => .fail
              | .out => .out
end

/- Printer: operator<< for ConValue, ConArray and ConObject.  Strings
are wrapped in double quotes with no escaping; array elements and
object pairs are separated by a comma and a space; object keys print in
the map's sorted order as "key": value; a null data pointer of an
unknown type prints the text Invalid type. -/
mutual
def ConValue.print (p : Platform) : ConValue → List Nat
  | .null => [110, 117, 108, 108]
  | .boolean true => [116, 114, 117, 101]
  | .boolean false => [102, 97, 108, 115, 101]
  | .integer n => intDec n
  | .float q => p.showDouble q
  | .string s => 34 :: (s ++ [34])
  | .array a => 91 :: (ConArray.printItems p a ++ [93])
  | .object o => 123 :: (ConObject.printItems p o ++ [125])
  | .invalid _ => [73, 110, 118, 97, 108, 105, 100, 32, 116, 121, 112, 101]
def ConArray.printItems (p : Platform) : ConArray → List Nat
  | .nil => []
  | .cons v .nil => ConValue.print p v
  | .cons v (.cons v2 rest) =>
    ConValue.print p v ++ 44 :: 32 :: ConArray.printItems p (.cons v2 rest)
def ConObject.printItems (p : Platform) : ConObject → List Nat
  | .nil => []
  | .cons k v .nil => 34 :: (k ++ 34 :: 58 :: 32 :: ConValue.print p v)
  | .cons k v (.cons k2 v2 rest) =>
    (34 :: (k ++ 34 :: 58 :: 32 :: ConValue.print p v)) ++
      44 :: 32 :: ConObject.printItems p (.cons k2 v2 rest)
end

/-- Byte list of an ASCII string literal (for concrete test inputs). -/
def strBytes (s : String) : List Nat := s.data.map Char.toNat

/-- The value returned to the caller of a whole-document `is >> value`,
ignoring what remains on the stream. -/
def parseTextValue (p : Platform) (fuel : Nat) (s : List Nat) : Option ConValue :=
  match conValueParse p fuel s with
  | .ok (v, _) => some v
  | _ => none

/-- The string-scanning loop never returns once the stream is exhausted
with a last character other than the closing quote: the C++ loop then
re-appends that character forever. -/
theorem scanString_empty_out (last : Nat) (h : (last == 34) = false) :
    ∀ fuel, scanString last fuel [] = .out := by
  intro fuel
  induction fuel with
  | zero => rfl
  | succ f ih => simp [scanString, h, ih]

/-- The whole-value parse of the three-byte input consisting of a double
quote and two letters runs out of any amount of fuel: the source loops
forever on an unterminated, non-empty string token. -/
def divergesOnText (s : List Nat) : Prop :=
  ∀ fuel, conValueParse pairPlatform fuel s = .out

/-- C7 counterexample: parsing is not total: on the input consisting of
a double quote followed by ab (an unterminated string), the parser
neither completes nor fails for any fuel bound, mirroring the source's
infinite character-appending loop. -/
theorem c7_parse_totality_cex : divergesOnText (strBytes "\x22ab") := by
  intro fuel
  cases fuel with
  | zero => rfl
  | succ f =>
    have h98 : ∀ g, scanString 98 g [] = PRes.out := scanString_empty_out 98 (by decide)
    have hscan : scanString 34 f [97, 98] = PRes.out := by
      cases f with
      | zero => rfl
      | succ g =>
        cases g with
        | zero => simp [scanString]
        | succ g2 => simp [scanString, h98]
    simp [conValueParse, strBytes, eliminateWhitespace, List.dropWhile, isConWs, hscan]

/-- C7 amended: parsing the object text with a trailing comma and no
second key reports a parse failure (failbit), not a crash and not a
silently truncated tree: the whole parse returns failure and no value;
totality, however, only holds away from unterminated string tokens (see
the counterexample). -/
theorem c7_trailing_comma_fails :
    conValueParse pairPlatform 100 (strBytes "\x7b\"a\": 1,\x7d") = .fail ∧
    parseTextValue pairPlatform 100 (strBytes "\x7b\"a\": 1,\x7d") = none := by
  constructor
  · decide
  · decide

/-- C8 counterexample: with the next non-whitespace character n, the
parser yields Null while consuming zero characters, not four: parsing
nxyz leaves the entire four-character input on the stream (consuming
exactly 4 characters would leave it empty). -/
theorem c8_null_consumption_cex :
    conValueParse pairPlatform 2 (strBytes "nxyz") = .ok (.null, strBytes "nxyz") ∧
    strBytes "nxyz" ≠ [] := by
  constructor
  · decide
  · decide

/-- C8 amended: when the next non-whitespace character of the input is
n, the parser yields a Null value and consumes nothing beyond the
leading whitespace — the dispatch character was put back and the branch
body reads no characters — so a malformed token like nxyz is accepted
as Null at top level with the token left unconsumed. -/
theorem c8_null_leniency (p : Platform) (fuel : Nat) (s : List Nat) (r : List Nat)
    (h : eliminateWhitespace s = 110 :: r) :
    conValueParse p (fuel + 1) s = .ok (.null, 110 :: r) := by
  simp [conValueParse, h]

/-- Witness for C8 amended at the concrete input nxyz. -/
theorem c8_null_leniency_witness :
    conValueParse pairPlatform 3 (strBytes "nxyz") = .ok (.null, 110 :: strBytes "xyz") :=
  c8_null_leniency pairPlatform 2 (strBytes "nxyz") (strBytes "xyz") (by decide)

/-- C9: Number collapse: a numeric token is read as a double (its exact
decimal value passed through the platform's binary64 rounding) and
stored as an Integer exactly when that double has an exact integer
representation (denominator 1), else as a Float; parsing 42 yields
Integer 42, parsing 42.5 yields Float 85/2, and parsing 42.0 yields
Integer 42, whenever the platform rounding is exact at those
representable values. -/
theorem c9_number_collapse :
    (∀ p : Platform, ∀ q rest s, numToken s = some (q, rest) →
       parseNumber p s = if (p.readDouble q).den = 1
         then .ok (.integer (p.readDouble q).num, rest)
         else .ok (.float (p.readDouble q), rest)) ∧
    (∀ p : Platform, p.readDouble 42 = 42 →
       conValueParse p 2 (strBytes "42") = .ok (.integer 42, [])) ∧
    (∀ p : Platform, p.readDouble (mkRat 85 2) = mkRat 85 2 →
       conValueParse p 2 (strBytes "42.5") = .ok (.float (mkRat 85 2), [])) ∧
    (∀ p : Platform, p.readDouble 42 = 42 →
       conValueParse p 2 (strBytes "42.0") = .ok (.integer 42, [])) := by
  refine ⟨?_, ?_, ?_, ?_⟩
  · intro p q rest s h
    simp [parseNumber, h]
  · intro p h
    have hnt : numToken [52, 50] = some (42, []) := by decide
    have hden : (42 : ℚ).den = 1 := by decide
    have hnum : (42 : ℚ).num = 42 := by decide
    simp [conValueParse, strBytes, eliminateWhitespace, List.dropWhile, isConWs,
      parseNumber, hnt, h, hden, hnum]
  · intro p h
    have hnt : numToken [52, 50, 46, 53] = some (mkRat 85 2, []) := by decide
    have hden : (mkRat 85 2).den = 2 := by decide
    simp [conValueParse, strBytes, eliminateWhitespace, List.dropWhile, isConWs,
      parseNumber, hnt, h, hden]
  · intro p h
    have hnt : numToken [52, 50, 46, 48] = some (42, []) := by decide
    have hden : (42 : ℚ).den = 1 := by decide
    have hnum : (42 : ℚ).num = 42 := by decide
    simp [conValueParse, strBytes, eliminateWhitespace, List.dropWhile, isConWs,
      parseNumber, hnt, h, hden, hnum]

/-- Witness for C9 with the identity rounding (exact at every
representable value), at the three inputs of the claim. -/
theorem c9_number_collapse_witness :
    conValueParse pairPlatform 2 (strBytes "42") = .ok (.integer 42, []) ∧
    conValueParse pairPlatform 2 (strBytes "42.5") = .ok (.float (mkRat 85 2), []) ∧
    conValueParse pairPlatform 2 (strBytes "42.0") = .ok (.integer 42, []) :=
  ⟨c9_number_collapse.2.1 pairPlatform rfl,
   c9_number_collapse.2.2.1 pairPlatform rfl,
   c9_number_collapse.2.2.2 pairPlatform rfl⟩

theorem bytesLt_irrefl : ∀ a : List Nat, bytesLt a a = false
  | [] => rfl
  | x :: xs => by simp [bytesLt, bytesLt_irrefl xs]

theorem bytesLt_eq_of_not : ∀ a b : List Nat,
    bytesLt a b = false → bytesLt b a = false → a = b
  | [], [], _, _ => rfl
  | [], _ :: _, h1, _ => by simp [bytesLt] at h1
  | _ :: _, [], _, h2 => by simp [bytesLt] at h2
  | x :: xs, y :: ys, h1, h2 => by
    simp only [bytesLt] at h1 h2
    rcases Nat.lt_trichotomy x y with hxy | hxy | hxy
    · simp [hxy] at h1
    · subst hxy
      simp only [Nat.lt_irrefl, if_false] at h1 h2
      rw [bytesLt_eq_of_not xs ys h1 h2]
    · simp [hxy, Nat.lt_asymm hxy] at h2

/-- First-key bound: `k` is below the first key of the object (or the
object is empty). -/
def ConObject.lbHead (k : List Nat) : ConObject → Bool
  | .nil => true
  | .cons k2 _ _ => bytesLt k k2

theorem sortedKeys_cons (k : List Nat) (v : ConValue) (rest : ConObject) :
    (ConObject.cons k v rest).sortedKeys = (rest.lbHead k && rest.sortedKeys) := by
  cases rest with
  | nil => simp [ConObject.sortedKeys, ConObject.lbHead]
  | cons k2 v2 rest2 => simp [ConObject.sortedKeys, ConObject.lbHead]

theorem lbHead_insert : ∀ (rest : ConObject) (k0 k : List Nat) (v : ConValue),
    ConObject.lbHead k0 rest = true → bytesLt k0 k = true →
    ConObject.lbHead k0 (rest.insert k v) = true
  | .nil, k0, k, v, _, h2 => by simp [ConObject.insert, ConObject.lbHead, h2]
  | .cons k3 v3 rest2, k0, k, v, h1, h2 => by
    simp only [ConObject.lbHead] at h1
    simp only [ConObject.insert]
    rcases Bool.eq_false_or_eq_true (bytesLt k k3) with h3 | h3
    · simp [h3, ConObject.lbHead, h2]
    · simp only [h3, Bool.false_eq_true, if_false]
      rcases Bool.eq_false_or_eq_true (bytesLt k3 k) with h4 | h4
      · simp [h3, h4, ConObject.lbHead, h1]
      · simp [h3, h4, ConObject.lbHead, h2]

theorem sortedKeys_insert : ∀ (o : ConObject) (k : List Nat) (v : ConValue),
    o.sortedKeys = true → (o.insert k v).sortedKeys = true
  | .nil, k, v, _ => by simp [ConObject.insert, ConObject.sortedKeys]
  | .cons k2 v2 rest, k, v, h => by
    rw [sortedKeys_cons, Bool.and_eq_true] at h
    simp only [ConObject.insert]
    rcases Bool.eq_false_or_eq_true (bytesLt k k2) with h1 | h1
    · simp only [h1, if_true]
      rw [sortedKeys_cons, Bool.and_eq_true]
      constructor
      · simp [ConObject.lbHead, h1]
      · rw [sortedKeys_cons, Bool.and_eq_true]
        exact h
    · simp only [h1, Bool.false_eq_true, if_false]
      rcases Bool.eq_false_or_eq_true (bytesLt k2 k) with h2 | h2
      · simp only [h2, if_true]
        rw [sortedKeys_cons, Bool.and_eq_true]
        exact ⟨lbHead_insert rest k2 k v h.1 h2, sortedKeys_insert rest k v h.2⟩
      · have hk : k = k2 := bytesLt_eq_of_not k k2 h1 h2
        subst hk
        simp only [h2, Bool.false_eq_true, if_false]
        rw [sortedKeys_cons, Bool.and_eq_true]
        exact h

/-- `std::map::find`-style lookup on the sorted association list. -/
def ConObject.find? : ConObject → List Nat → Option ConValue
  | .nil, _ => none
  | .cons k2 v2 rest, k =>
    if bytesLt k k2 then none
    else if bytesLt k2 k then ConObject.find? rest k
    else some v2

theorem find?_insert : ∀ (o : ConObject) (k : List Nat) (v : ConValue),
    (o.insert k v).find? k = some v
  | .nil, k, v => by simp [ConObject.insert, ConObject.find?, bytesLt_irrefl]
  | .cons k2 v2 rest, k, v => by
    simp only [ConObject.insert]
    rcases Bool.eq_false_or_eq_true (bytesLt k k2) with h1 | h1
    · simp [ConObject.find?, h1, bytesLt_irrefl]
    · simp only [h1, Bool.false_eq_true, if_false]
      rcases Bool.eq_false_or_eq_true (bytesLt k2 k) with h2 | h2
      · simp [ConObject.find?, h1, h2, find?_insert rest k v]
      · have hk : k = k2 := bytesLt_eq_of_not k k2 h1 h2
        subst hk
        simp [ConObject.find?, bytesLt_irrefl]

/-- The keys of an object, in iteration order. -/
def ConObject.keys : ConObject → List (List Nat)
  | .nil => []
  | .cons k _ rest => k :: ConObject.keys rest

theorem sorted_gt_head : ∀ (rest : ConObject) (k : List Nat) (v : ConValue),
    (ConObject.cons k v rest).sortedKeys = true →
    ∀ k2 ∈ rest.keys, bytesLt k k2 = true
  | .nil, _, _, _, _, hmem => by simp [ConObject.keys] at hmem
  | .cons k3 v3 rest2, k, v, h, k2, hmem => by
    simp only [ConObject.sortedKeys, Bool.and_eq_true] at h
    simp only [ConObject.keys, List.mem_cons] at hmem
    rcases hmem with rfl | hmem
    · exact h.1
    · exact bytesLt_trans k k3 k2 h.1 (sorted_gt_head rest2 k3 v3 h.2 k2 hmem)

theorem keys_nodup : ∀ o : ConObject, o.sortedKeys = true → o.keys.Nodup
  | .nil, _ => List.nodup_nil
  | .cons k v rest, h => by
    have hrest : rest.sortedKeys = true := by
      rw [sortedKeys_cons, Bool.and_eq_true] at h
      exact h.2
    simp only [ConObject.keys, List.nodup_cons]
    refine ⟨fun hmem => ?_, keys_nodup rest hrest⟩
    have := sorted_gt_head rest k v h k hmem
    rw [bytesLt_irrefl] at this
    exact Bool.false_ne_true this

/-- Folding map insertions over a pair list, as both decode loops do. -/
def ConObject.insertAll (o : ConObject) (ps : List (List Nat × ConValue)) : ConObject :=
  ps.foldl (fun acc kv => acc.insert kv.1 kv.2) o

theorem sortedKeys_insertAll : ∀ (ps : List (List Nat × ConValue)) (o : ConObject),
    o.sortedKeys = true → (o.insertAll ps).sortedKeys = true
  | [], _, h => h
  | kv :: ps, o, h =>
    sortedKeys_insertAll ps (o.insert kv.1 kv.2) (sortedKeys_insert o kv.1 kv.2 h)

/-- C5: Sorted object keys: any object built by inserting pairs into the
empty map (as both the text parser and the binary decoder do) has
key-sorted iteration order and unique keys; parsing the object text
with keys b then a and printing the result yields the object text with
keys a then b, in sorted order with the same values. -/
theorem c5_sorted_object_keys :
    (∀ ps : List (List Nat × ConValue), (ConObject.nil.insertAll ps).sortedKeys = true) ∧
    (∀ ps : List (List Nat × ConValue), (ConObject.nil.insertAll ps).keys.Nodup) ∧
    (parseTextValue pairPlatform 100 (strBytes "\x7b\"b\": 1, \"a\": 2\x7d") =
       some (.object (.cons (strBytes "a") (.integer 2)
         (.cons (strBytes "b") (.integer 1) .nil)))) ∧
    ((match parseTextValue pairPlatform 100 (strBytes "\x7b\"b\": 1, \"a\": 2\x7d") with
      | some v => ConValue.print pairPlatform v
      | none => []) = strBytes "\x7b\"a\": 2, \"b\": 1\x7d") := by
  refine ⟨?_, ?_, by decide, by decide⟩
  · intro ps
    exact sortedKeys_insertAll ps .nil rfl
  · intro ps
    exact keys_nodup _ (sortedKeys_insertAll ps .nil rfl)

/-- C10: Duplicate-key overwrite: map insertion stores the last value
for a repeated key and keeps keys sorted and unique, so both the text
parser (operator>> on ConObject) and the binary decoder
(ConObject::read) return a single entry holding the last value when the
same key occurs twice; shown both generally for the insertion operation
and end to end on a duplicate-key text object and a duplicate-key
binary object body. -/
theorem c10_duplicate_key_overwrite :
    (∀ (o : ConObject) (k : List Nat) (v : ConValue), (o.insert k v).find? k = some v) ∧
    (∀ (o : ConObject) (k : List Nat) (v : ConValue), o.sortedKeys = true →
       (o.insert k v).sortedKeys = true) ∧
    (parseTextValue pairPlatform 100 (strBytes "\x7b\"a\": 1, \"a\": 2\x7d") =
       some (.object (.cons (strBytes "a") (.integer 2) .nil))) ∧
    (ConValue.read pairPlatform 4
       (6 :: 0 :: (toLE 8 2 ++ (toLE 8 1 ++ [97] ++ 2 :: int64Bytes 1)
          ++ (toLE 8 1 ++ [97] ++ 2 :: int64Bytes 2))) =
       some (.object (.cons [97] (.integer 2) .nil), [])) := by
  refine ⟨find?_insert, sortedKeys_insert, by decide, by decide⟩

/-- Witness for C10's insertion laws at a concrete object: overwriting
the key 97 in a one-entry map keeps it sorted and returns the last
value. -/
theorem c10_duplicate_key_overwrite_witness :
    ((ConObject.cons [97] (.integer 1) .nil).insert [97] (.integer 2)).find? [97] =
      some (.integer 2) ∧
    (ConObject.cons [97] (.integer 1) .nil).sortedKeys = true ∧
    (((ConObject.cons [97] (.integer 1) .nil).insert [97] (.integer 2)).sortedKeys = true) :=
  ⟨c10_duplicate_key_overwrite.1 (ConObject.cons [97] (.integer 1) .nil) [97] (.integer 2),
   by decide,
   c10_duplicate_key_overwrite.2.1 (ConObject.cons [97] (.integer 1) .nil) [97] (.integer 2)
     (by decide)⟩

/- Conditions under which the text round trip holds.  noQuotes is the
claim's own hypothesis (strings and keys contain no double-quote
character).  textOk is the amended hypothesis: additionally no Float
node (printing a double uses 6-significant-digit default formatting and
integral doubles re-parse as Integers), no Null inside a container (the
parser's n branch consumes nothing, so the enclosing container's
separator check fails), and Integer payloads whose magnitude stays
exactly representable in a double (at most 2^53), since the parser
re-reads numbers through the double type. -/
mutual
def ConValue.noQuotes : ConValue → Bool
  | .string s => s.all (fun b => !(b == 34))
  | .array a => ConArray.noQuotesItems a
  | .object o => ConObject.noQuotesItems o
  | _ => true
def ConArray.noQuotesItems : ConArray → Bool
  | .nil => true
  | .cons v rest => v.noQuotes && ConArray.noQuotesItems rest
def ConObject.noQuotesItems : ConObject → Bool
  | .nil => true
  | .cons k v rest =>
    k.all (fun b => !(b == 34)) && v.noQuotes && ConObject.noQuotesItems rest
end

mutual
def ConValue.textOk : ConValue → Bool
  | .null => true
  | .boolean _ => true
  | .integer n => decide (n.natAbs ≤ 2 ^ 53)
  | .float _ => false
  | .string s => s.all (fun b => !(b == 34))
  | .array a => ConArray.textOkItems a
  | .object o => o.sortedKeys && ConObject.textOkItems o
  | .invalid _ => false
def ConArray.textOkItems : ConArray → Bool
  | .nil => true
  | .cons v rest => decide (v ≠ ConValue.null) && v.textOk && ConArray.textOkItems rest
def ConObject.textOkItems : ConObject → Bool
  | .nil => true
  | .cons k v rest =>
    k.all (fun b => !(b == 34)) && decide (v ≠ ConValue.null) && v.textOk &&
      ConObject.textOkItems rest
end

/- Fuel sufficient to re-parse a printed value: one unit per parser call
and one per scanned string character. -/
mutual
def ConValue.pfuel : ConValue → Nat
  | .string s => s.length + 2
  | .array a => ConArray.lfuel a + 2
  | .object o => ConObject.lfuel o + 2
  | _ => 1
def ConArray.lfuel : ConArray → Nat
  | .nil => 1
  | .cons v rest => max v.pfuel (ConArray.lfuel rest) + 1
def ConObject.lfuel : ConObject → Nat
  | .nil => 1
  | .cons _ v rest => max v.pfuel (ConObject.lfuel rest) + 1
end

/-- What may legitimately follow a printed value inside a document: end
of input, a comma, or a closing bracket or brace. -/
def boundary : List Nat → Bool
  | [] => true
  | c :: _ => c == 44 || c == 93 || c == 125

theorem elimWs_of_boundary (rest : List Nat) (h : boundary rest = true) :
    eliminateWhitespace rest = rest := by
  cases rest with
  | nil => rfl
  | cons c r =>
    simp only [boundary, Bool.or_eq_true, beq_iff_eq] at h
    have hws : isConWs c = false := by
      rcases h with (h | h) | h <;> subst h <;> rfl
    simp [eliminateWhitespace, List.dropWhile, hws]

theorem conValueParse_ws (p : Platform) (fuel : Nat) (s : List Nat) :
    conValueParse p fuel (32 :: s) = conValueParse p fuel s := by
  cases fuel with
  | zero => rfl
  | succ f =>
    have h : eliminateWhitespace (32 :: s) = eliminateWhitespace s := by
      simp [eliminateWhitespace, List.dropWhile, isConWs]
    simp only [conValueParse, h]

theorem next_ws (s : List Nat) : next (32 :: s) = next s := by
  have h : eliminateWhitespace (32 :: s) = eliminateWhitespace s := by
    simp [eliminateWhitespace, List.dropWhile, isConWs]
  simp only [next, h]

theorem conArrayLoop_ws (p : Platform) (fuel : Nat) (s : List Nat) :
    conArrayLoop p fuel (32 :: s) = conArrayLoop p fuel s := by
  cases fuel with
  | zero => rfl
  | succ f => simp only [conArrayLoop, conValueParse_ws]

theorem conObjectLoop_ws (p : Platform) (fuel : Nat) (acc : ConObject) (s : List Nat) :
    conObjectLoop p fuel acc (32 :: s) = conObjectLoop p fuel acc s := by
  cases fuel with
  | zero => rfl
  | succ f => simp only [conObjectLoop, next_ws]

theorem takeWhile_append_eq (f : Nat → Bool) : ∀ (xs rest : List Nat),
    xs.all f = true → (∀ c, rest.head? = some c → f c = false) →
    (xs ++ rest).takeWhile f = xs ∧ (xs ++ rest).dropWhile f = rest
  | [], rest, _, h2 => by
    cases rest with
    | nil => exact ⟨rfl, rfl⟩
    | cons c r =>
      have := h2 c rfl
      simp [List.takeWhile, List.dropWhile, this]
  | x :: xs, rest, h1, h2 => by
    simp only [List.all_cons, Bool.and_eq_true] at h1
    have ih := takeWhile_append_eq f xs rest h1.2 h2
    simp [List.takeWhile, List.dropWhile, h1.1, ih.1, ih.2]

/-- The string-scanning loop returns exactly the quote-free prefix and
consumes the closing quote. -/
theorem scanString_closed : ∀ (s : List Nat) (fuel : Nat) (rest : List Nat) (last : Nat),
    s.all (fun b => !(b == 34)) = true → s.length + 1 ≤ fuel →
    scanString last fuel (s ++ 34 :: rest) = .ok (s, rest)
  | [], fuel, rest, last, _, hf => by
    obtain ⟨g, rfl⟩ : ∃ g, fuel = g + 1 := ⟨fuel - 1, by omega⟩
    simp [scanString]
  | c :: cs, fuel, rest, last, hq, hf => by
    obtain ⟨g, rfl⟩ : ∃ g, fuel = g + 1 := ⟨fuel - 1, by simp at hf; omega⟩
    simp only [List.all_cons, Bool.and_eq_true] at hq
    have hc : (c == 34) = false := by
      cases hb : c == 34 <;> simp_all
    have ih := scanString_closed cs g rest c hq.2 (by simp at hf; omega)
    simp [scanString, hc, ih]

theorem natDecAux_spec : ∀ (fuel n : Nat), n < fuel →
    (natDecAux fuel n).all isDigit = true ∧ natDecAux fuel n ≠ [] ∧
    (∀ acc : Nat, (natDecAux fuel n).foldl (fun a d => a * 10 + (d - 48)) acc =
      acc * 10 ^ (natDecAux fuel n).length + n)
  | 0, n, h => absurd h (by omega)
  | fuel + 1, n, _ => by
    by_cases hn : n < 10
    · refine ⟨?_, ?_, ?_⟩
      · simp [natDecAux, hn, isDigit]
        omega
      · simp [natDecAux, hn]
      · intro acc
        simp [natDecAux, hn]
    · have hrec := natDecAux_spec fuel (n / 10) (by omega)
      refine ⟨?_, ?_, ?_⟩
      · simp only [natDecAux, hn, if_false]
        rw [List.all_append]
        simp [hrec.1, isDigit]
        omega
      · simp [natDecAux, hn]
      · intro acc
        simp only [natDecAux, hn, if_false]
        rw [List.foldl_append, hrec.2.2 acc, List.length_append, List.length_cons,
          List.length_nil]
        simp only [List.foldl]
        have h48 : 48 + n % 10 - 48 = n % 10 := by omega
        rw [h48, Nat.pow_succ]
        have := Nat.div_add_mod n 10
        ring_nf
        omega

theorem natDec_spec (n : Nat) :
    (natDec n).all isDigit = true ∧ natDec n ≠ [] ∧ digitsVal (natDec n) = n := by
  have h := natDecAux_spec (n + 1) n (by omega)
  refine ⟨h.1, h.2.1, ?_⟩
  have := h.2.2 0
  simpa [digitsVal] using this

theorem boundary_facts (rest : List Nat) (h : boundary rest = true) :
    rest.head? ≠ some 46 ∧ rest.head? ≠ some 101 ∧ rest.head? ≠ some 69 ∧
    rest.head? ≠ some 45 ∧ rest.head? ≠ some 43 ∧
    (∀ c, rest.head? = some c → isDigit c = false) := by
  cases rest with
  | nil =>
    refine ⟨by simp, by simp, by simp, by simp, by simp, ?_⟩
    intro c hc
    cases hc
  | cons c r =>
    simp only [boundary, Bool.or_eq_true, beq_iff_eq] at h
    rcases h with (h | h) | h <;> subst h <;>
      exact ⟨by simp, by simp, by simp, by simp, by simp,
        fun c2 hc => by simp only [List.head?, Option.some.injEq] at hc; subst hc; rfl⟩

theorem digitsVal_nil : digitsVal [] = 0 := rfl

/-- The first character of a printed integer is a minus sign or a
decimal digit. -/
theorem intDec_head (n : Int) : ∃ d ds, intDec n = d :: ds ∧ 45 ≤ d ∧ d ≤ 57 := by
  cases n with
  | ofNat m =>
    obtain ⟨hall, hne, _⟩ := natDec_spec m
    cases hds : natDec m with
    | nil => exact absurd hds hne
    | cons d ds =>
      refine ⟨d, ds, by simp [intDec, hds], ?_, ?_⟩ <;>
      · rw [hds] at hall
        simp only [List.all_cons, Bool.and_eq_true, isDigit, decide_eq_true_eq] at hall
        omega
  | negSucc m => exact ⟨45, natDec (m + 1), rfl, by omega, by omega⟩

theorem numToken_digits (k : Nat) (rest : List Nat) (hb : boundary rest = true)
    (hhead : ∀ s1 : List Nat, s1 = natDec k ++ rest →
      ¬(s1.head? = some 45 ∨ s1.head? = some 43)) :
    numToken (natDec k ++ rest) = some (mkRat k 1, rest) := by
  obtain ⟨hb46, hb101, hb69, _, _, hbdig⟩ := boundary_facts rest hb
  obtain ⟨hall, hne, hval⟩ := natDec_spec k
  have htw := takeWhile_append_eq isDigit (natDec k) rest hall hbdig
  have hie : (natDec k).isEmpty = false := by
    cases hds : natDec k with
    | nil => exact absurd hds hne
    | cons d ds => rfl
  have hsgn := hhead (natDec k ++ rest) rfl
  simp only [numToken]
  rw [if_neg hsgn, htw.1, htw.2, if_neg hb46, if_neg hb46, hie]
  simp only [Bool.false_and, Bool.false_eq_true, if_false]
  rw [if_neg (by rintro (h | h) <;> [exact hb101 h; exact hb69 h]),
    if_neg (fun h => hsgn (Or.inl h))]
  simp [digitsVal_nil, hval, Rat.mkRat_one]

theorem parseNumber_intDec (p : Platform) (n : Int) (rest : List Nat)
    (hr : p.readDouble (n : ℚ) = (n : ℚ)) (hb : boundary rest = true) :
    parseNumber p (intDec n ++ rest) = .ok (.integer n, rest) := by
  cases n with
  | ofNat m =>
    have hhead : ∀ s1 : List Nat, s1 = natDec m ++ rest →
        ¬(s1.head? = some 45 ∨ s1.head? = some 43) := by
      intro s1 hs1
      obtain ⟨hall, hne, _⟩ := natDec_spec m
      cases hds : natDec m with
      | nil => exact absurd hds hne
      | cons d ds =>
        rw [hds] at hall
        simp only [List.all_cons, Bool.and_eq_true, isDigit, decide_eq_true_eq] at hall
        subst hs1
        rw [hds]
        simp only [List.cons_append, List.head?, Option.some.injEq]
        omega
    have hnt := numToken_digits m rest hb hhead
    have hcast : (mkRat m 1 : ℚ) = ((Int.ofNat m : Int) : ℚ) := by
      rw [Rat.mkRat_one]
      norm_cast
    simp only [intDec, parseNumber, hnt, hcast, hr, Rat.den_intCast, Rat.num_intCast,
      if_true]
  | negSucc m =>
    have hhead : ∀ s1 : List Nat, s1 = natDec (m + 1) ++ rest →
        ¬(s1.head? = some 45 ∨ s1.head? = some 43) := by
      intro s1 hs1
      obtain ⟨hall, hne, _⟩ := natDec_spec (m + 1)
      cases hds : natDec (m + 1) with
      | nil => exact absurd hds hne
      | cons d ds =>
        rw [hds] at hall
        simp only [List.all_cons, Bool.and_eq_true, isDigit, decide_eq_true_eq] at hall
        subst hs1
        rw [hds]
        simp only [List.cons_append, List.head?, Option.some.injEq]
        omega
    obtain ⟨hb46, hb101, hb69, _, _, hbdig⟩ := boundary_facts rest hb
    obtain ⟨hall, hne, hval⟩ := natDec_spec (m + 1)
    have htw := takeWhile_append_eq isDigit (natDec (m + 1)) rest hall hbdig
    have hie : (natDec (m + 1)).isEmpty = false := by
      cases hds : natDec (m + 1) with
      | nil => exact absurd hds hne
      | cons d ds => rfl
    have hnt : numToken (intDec (Int.negSucc m) ++ rest) =
        some (mkRat (Int.negSucc m) 1, rest) := by
      simp only [intDec, List.cons_append, numToken, List.head?_cons, Option.some.injEq,
        List.tail_cons, true_or, if_true, Nat.reduceEqDiff, false_or, if_false]
      rw [htw.1, htw.2, if_neg hb46, if_neg hb46, hie]
      simp only [Bool.false_and, Bool.false_eq_true, if_false]
      rw [if_neg (by rintro (h | h) <;> [exact hb101 h; exact hb69 h])]
      have hns : Int.negSucc m = -1 * ((m + 1 : Nat) : Int) := by
        rw [Int.negSucc_eq]
        push_cast
        ring
      simp [digitsVal_nil, hval, hns]
    simp only [parseNumber, hnt]
    rw [Rat.mkRat_one, hr]
    have hden : ((Int.negSucc m : Int) : ℚ).den = 1 := Rat.den_intCast _
    have hnum : ((Int.negSucc m : Int) : ℚ).num = Int.negSucc m := Rat.num_intCast _
    rw [hden, hnum]
    simp

theorem conValueParse_intDec (p : Platform) (n : Int) (rest : List Nat) (fuel : Nat)
    (hr : p.readDouble (n : ℚ) = (n : ℚ)) (hb : boundary rest = true) :
    conValueParse p (fuel + 1) (intDec n ++ rest) = .ok (.integer n, rest) := by
  obtain ⟨d, ds, hds, h45, h57⟩ := intDec_head n
  have hws : isConWs d = false := by
    simp only [isConWs, Bool.or_eq_false_iff, beq_eq_false_iff_ne, ne_eq]
    omega
  have helim : eliminateWhitespace (intDec n ++ rest) = d :: (ds ++ rest) := by
    rw [hds, List.cons_append]
    simp [eliminateWhitespace, List.dropWhile_cons, hws]
  have hchain : (d == 110) = false ∧ (d == 116) = false ∧ (d == 102) = false ∧
      (d == 34) = false ∧ (d == 91) = false ∧ (d == 123) = false := by
    refine ⟨?_, ?_, ?_, ?_, ?_, ?_⟩ <;> exact beq_eq_false_iff_ne.mpr (by omega)
  simp only [conValueParse, helim, hchain.1, hchain.2.1, hchain.2.2.1, hchain.2.2.2.1,
    hchain.2.2.2.2.1, hchain.2.2.2.2.2, Bool.false_eq_true, if_false]
  rw [← List.cons_append, ← hds]
  exact parseNumber_intDec p n rest hr hb

/-- The first character of any printable (non-Null, text-round-trip
eligible) value is never whitespace and never a closing bracket. -/
theorem print_head_facts (p : Platform) (v : ConValue) (hok : v.textOk = true)
    (hnn : v ≠ ConValue.null) :
    ∃ c r, ConValue.print p v = c :: r ∧ isConWs c = false ∧ (c == 93) = false := by
  cases v with
  | null => exact absurd rfl hnn
  | boolean b =>
    cases b
    · exact ⟨102, [97, 108, 115, 101], rfl, rfl, rfl⟩
    · exact ⟨116, [114, 117, 101], rfl, rfl, rfl⟩
  | integer n =>
    obtain ⟨d, ds, hds, h45, h57⟩ := intDec_head n
    refine ⟨d, ds, by simp [ConValue.print, hds], ?_, ?_⟩
    · simp only [isConWs, Bool.or_eq_false_iff, beq_eq_false_iff_ne, ne_eq]
      omega
    · exact beq_eq_false_iff_ne.mpr (by omega)
  | float q => simp [ConValue.textOk] at hok
  | string s => exact ⟨34, s ++ [34], rfl, rfl, rfl⟩
  | array a => exact ⟨91, ConArray.printItems p a ++ [93], rfl, rfl, rfl⟩
  | object o => exact ⟨123, ConObject.printItems p o ++ [125], rfl, rfl, rfl⟩
  | invalid t => simp [ConValue.textOk] at hok

/- Text round trip, under the amended hypotheses (textOk, non-Null at
this position, and a boundary character following the printed value):
re-parsing a printed value returns exactly that value and consumes
exactly its printed text.  The loop lemmas mirror the element and pair
loops of operator>> on ConArray/ConObject; the object loop carries the
accumulated map and the same ordering invariants as the binary decode
loop. -/
mutual
theorem textRT_value (p : Platform)
    (hr : ∀ n : Int, n.natAbs ≤ 2 ^ 53 → p.readDouble (n : ℚ) = (n : ℚ)) :
    ∀ (v : ConValue) (fuel : Nat) (rest : List Nat),
      v.textOk = true → v ≠ ConValue.null → boundary rest = true → v.pfuel ≤ fuel →
      conValueParse p fuel (ConValue.print p v ++ rest) = .ok (v, rest)
  | .null, _, _, _, hnn, _, _ => absurd rfl hnn
  | .boolean b, fuel, rest, _, _, _, hf => by
    obtain ⟨f, rfl⟩ : ∃ f, fuel = f + 1 :=
      ⟨fuel - 1, by simp [ConValue.pfuel] at hf; omega⟩
    cases b with
    | false =>
      have hlen : 4 ≤ (([97, 108, 115, 101] : List Nat) ++ rest).length := by simp
      simp [ConValue.print, conValueParse, eliminateWhitespace, List.dropWhile,
        isConWs, hlen]
    | true =>
      have hlen : 3 ≤ (([114, 117, 101] : List Nat) ++ rest).length := by simp
      simp [ConValue.print, conValueParse, eliminateWhitespace, List.dropWhile,
        isConWs, hlen]
  | .integer n, fuel, rest, hok, _, hb, hf => by
    obtain ⟨f, rfl⟩ : ∃ f, fuel = f + 1 :=
      ⟨fuel - 1, by simp [ConValue.pfuel] at hf; omega⟩
    simp only [ConValue.textOk, decide_eq_true_eq] at hok
    have h := conValueParse_intDec p n rest f (hr n hok) hb
    simpa [ConValue.print] using h
  | .float q, _, _, hok, _, _, _ => by simp [ConValue.textOk] at hok
  | .invalid t, _, _, hok, _, _, _ => by simp [ConValue.textOk] at hok
  | .string s, fuel, rest, hok, _, _, hf => by
    obtain ⟨f, rfl⟩ : ∃ f, fuel = f + 1 :=
      ⟨fuel - 1, by simp [ConValue.pfuel] at hf; omega⟩
    simp only [ConValue.textOk] at hok
    have hsc := scanString_closed s f rest 34 hok
      (by simp [ConValue.pfuel] at hf; omega)
    simp [ConValue.print, conValueParse, eliminateWhitespace, List.dropWhile, isConWs,
      hsc]
  | .array a, fuel, rest, hok, _, hb, hf => by
    obtain ⟨f, rfl⟩ : ∃ f, fuel = f + 1 :=
      ⟨fuel - 1, by simp [ConValue.pfuel] at hf; omega⟩
    obtain ⟨g, rfl⟩ : ∃ g, f = g + 1 :=
      ⟨f - 1, by simp [ConValue.pfuel, ConArray.lfuel] at hf; cases a <;> omega⟩
    simp only [ConValue.textOk] at hok
    have hg : ConArray.lfuel a ≤ g := by
      simp [ConValue.pfuel] at hf
      omega
    have helim : List.dropWhile isConWs rest = rest := by
      have h := elimWs_of_boundary rest hb
      simpa [eliminateWhitespace] using h
    simp only [ConValue.print, List.cons_append, List.append_assoc, List.nil_append]
    simp [conValueParse, eliminateWhitespace, List.dropWhile, isConWs]
    simp [conArrayParse, next, eliminateWhitespace, List.dropWhile, isConWs]
    cases a with
    | nil =>
      simp [ConArray.printItems, List.dropWhile, isConWs, helim]
    | cons v a2 =>
      have hokItems : (ConArray.cons v a2).textOkItems = true := hok
      simp only [ConArray.textOkItems, Bool.and_eq_true, decide_eq_true_eq] at hok
      obtain ⟨c, r2, hcr, hws, h93⟩ := print_head_facts p v hok.1.2 hok.1.1
      obtain ⟨S2, hSeq⟩ : ∃ S2, ConArray.printItems p (.cons v a2) ++ 93 :: rest =
          c :: S2 := by
        cases a2 with
        | nil => exact ⟨r2 ++ 93 :: rest, by simp [ConArray.printItems, hcr]⟩
        | cons v2 a3 =>
          exact ⟨r2 ++ 44 :: 32 :: (ConArray.printItems p (.cons v2 a3) ++ 93 :: rest),
            by simp [ConArray.printItems, hcr]⟩
      rw [hSeq]
      have hd : List.dropWhile isConWs (c :: S2) = c :: S2 := by
        simp [List.dropWhile_cons, hws]
      simp only [hd]
      rw [if_neg (beq_eq_false_iff_ne.mp h93)]
      rw [← hSeq,
        textRT_arrayLoop p hr (.cons v a2) g rest (by simp) hokItems hb hg]
  | .object o, fuel, rest, hok, _, hb, hf => by
    obtain ⟨f, rfl⟩ : ∃ f, fuel = f + 1 :=
      ⟨fuel - 1, by simp [ConValue.pfuel] at hf; omega⟩
    obtain ⟨g, rfl⟩ : ∃ g, f = g + 1 :=
      ⟨f - 1, by simp [ConValue.pfuel, ConObject.lfuel] at hf; cases o <;> omega⟩
    simp only [ConValue.textOk, Bool.and_eq_true] at hok
    have hg : ConObject.lfuel o ≤ g := by
      simp [ConValue.pfuel] at hf
      omega
    have helim : List.dropWhile isConWs rest = rest := by
      have h := elimWs_of_boundary rest hb
      simpa [eliminateWhitespace] using h
    simp only [ConValue.print, List.cons_append, List.append_assoc, List.nil_append]
    simp [conValueParse, conObjectParse, next, eliminateWhitespace, List.dropWhile,
      isConWs]
    cases o with
    | nil =>
      simp [ConObject.printItems, List.dropWhile, isConWs, helim]
    | cons k v o2 =>
      have hloop := textRT_objectLoop p hr (.cons k v o2) .nil (g) rest (by simp)
        hok.1 hok.2 (nil_fits _) hb hg
      obtain ⟨T, hT⟩ : ∃ T, ConObject.printItems p (ConObject.cons k v o2) = 34 :: T := by
        cases o2 with
        | nil => exact ⟨k ++ 34 :: 58 :: 32 :: ConValue.print p v, rfl⟩
        | cons k2 v2 o3 =>
          refine ⟨(k ++ 34 :: 58 :: 32 :: ConValue.print p v) ++
            44 :: 32 :: ConObject.printItems p (.cons k2 v2 o3), ?_⟩
          simp [ConObject.printItems]
      rw [hT, List.cons_append]
      simp [List.dropWhile_cons, isConWs]
      rw [show (34 : Nat) :: (T ++ 125 :: rest) =
          ConObject.printItems p (ConObject.cons k v o2) ++ 125 :: rest from by
        rw [hT, List.cons_append]]
      rw [hloop]
      simp [ConObject.cat]
theorem textRT_arrayLoop (p : Platform)
    (hr : ∀ n : Int, n.natAbs ≤ 2 ^ 53 → p.readDouble (n : ℚ) = (n : ℚ)) :
    ∀ (a : ConArray) (fuel : Nat) (rest : List Nat),
      a ≠ ConArray.nil → a.textOkItems = true → boundary rest = true →
      ConArray.lfuel a ≤ fuel →
      conArrayLoop p fuel (ConArray.printItems p a ++ 93 :: rest) = .ok (a, rest)
  | .nil, _, _, hne, _, _, _ => absurd rfl hne
  | .cons v a2, fuel, rest, _, hok, hb, hf => by
    obtain ⟨g, rfl⟩ : ∃ g, fuel = g + 1 :=
      ⟨fuel - 1, by simp [ConArray.lfuel] at hf; omega⟩
    simp only [ConArray.textOkItems, Bool.and_eq_true, decide_eq_true_eq] at hok
    have hgv : v.pfuel ≤ g := by simp [ConArray.lfuel] at hf; omega
    cases a2 with
    | nil =>
      simp only [ConArray.printItems]
      simp only [conArrayLoop]
      rw [textRT_value p hr v g (93 :: rest) hok.1.2 hok.1.1 rfl hgv]
      simp [next, eliminateWhitespace, List.dropWhile, isConWs]
    | cons v2 a3 =>
      have hg2 : ConArray.lfuel (.cons v2 a3) ≤ g := by
        simp [ConArray.lfuel] at hf ⊢
        omega
      simp only [ConArray.printItems, List.cons_append, List.append_assoc]
      simp only [conArrayLoop]
      rw [textRT_value p hr v g
        (44 :: 32 :: (ConArray.printItems p (.cons v2 a3) ++ 93 :: rest))
        hok.1.2 hok.1.1 rfl hgv]
      simp [next, eliminateWhitespace, List.dropWhile, isConWs]
      rw [conArrayLoop_ws,
        textRT_arrayLoop p hr (.cons v2 a3) g rest (by simp) hok.2 hb hg2]
theorem textRT_objectLoop (p : Platform)
    (hr : ∀ n : Int, n.natAbs ≤ 2 ^ 53 → p.readDouble (n : ℚ) = (n : ℚ)) :
    ∀ (o : ConObject) (acc : ConObject) (fuel : Nat) (rest : List Nat),
      o ≠ ConObject.nil → o.sortedKeys = true → o.textOkItems = true →
      acc.fits o = true → boundary rest = true → ConObject.lfuel o ≤ fuel →
      conObjectLoop p fuel acc (ConObject.printItems p o ++ 125 :: rest) =
        .ok (acc.cat o, rest)
  | .nil, _, _, _, hne, _, _, _, _, _ => absurd rfl hne
  | .cons k v o2, acc, fuel, rest, _, hsort, hok, hfit, hb, hf => by
    obtain ⟨g, rfl⟩ : ∃ g, fuel = g + 1 :=
      ⟨fuel - 1, by simp [ConObject.lfuel] at hf; omega⟩
    simp only [ConObject.textOkItems, Bool.and_eq_true, decide_eq_true_eq] at hok
    simp only [ConObject.fits] at hfit
    have hgv : v.pfuel ≤ g := by simp [ConObject.lfuel] at hf; omega
    have hsnoc : acc.snoc k v = acc.cat (.cons k v .nil) := by
      rw [← cat_snoc acc k v .nil, cat_nil]
    cases o2 with
    | nil =>
      have hkey := takeWhile_append_eq (fun b => !(b == 34)) k
        (34 :: 58 :: 32 :: (ConValue.print p v ++ 125 :: rest)) hok.1.1.1
        (by
          intro c hc
          simp only [List.head?_cons, Option.some.injEq] at hc
          subst hc
          rfl)
      simp only [ConObject.printItems, List.cons_append, List.append_assoc]
      simp only [conObjectLoop]
      simp only [next, eliminateWhitespace, List.dropWhile_cons, isConWs]
      norm_num
      rw [hkey.1, hkey.2]
      simp [List.dropWhile_cons, isConWs]
      rw [conValueParse_ws,
        textRT_value p hr v g (125 :: rest) hok.1.2 hok.1.1.2 rfl hgv]
      simp only [next, eliminateWhitespace, List.dropWhile_cons, isConWs]
      norm_num
      rw [insert_of_allKeysLt acc k v hfit, hsnoc]
    | cons k2 v2 o3 =>
      have hsort2 : (ConObject.cons k2 v2 o3).sortedKeys = true := by
        simp only [ConObject.sortedKeys, Bool.and_eq_true] at hsort
        exact hsort.2
      have hfit2 : (acc.snoc k v).fits (.cons k2 v2 o3) = true := by
        simp only [ConObject.sortedKeys, Bool.and_eq_true] at hsort
        simp only [ConObject.fits, allKeysLt_snoc, Bool.and_eq_true]
        exact ⟨allKeysLt_mono acc k k2 hfit hsort.1, hsort.1⟩
      have hg2 : ConObject.lfuel (.cons k2 v2 o3) ≤ g := by
        simp [ConObject.lfuel] at hf ⊢
        omega
      have hkey := takeWhile_append_eq (fun b => !(b == 34)) k
        (34 :: 58 :: 32 :: (ConValue.print p v ++
          (44 :: 32 :: (ConObject.printItems p (.cons k2 v2 o3) ++ 125 :: rest))))
        hok.1.1.1
        (by
          intro c hc
          simp only [List.head?_cons, Option.some.injEq] at hc
          subst hc
          rfl)
      simp only [ConObject.printItems, List.cons_append, List.append_assoc]
      simp only [conObjectLoop]
      simp only [next, eliminateWhitespace, List.dropWhile_cons, isConWs]
      norm_num
      rw [hkey.1, hkey.2]
      simp [List.dropWhile_cons, isConWs]
      rw [conValueParse_ws,
        textRT_value p hr v g
          (44 :: 32 :: (ConObject.printItems p (.cons k2 v2 o3) ++ 125 :: rest))
          hok.1.2 hok.1.1.2 rfl hgv]
      simp only [next, eliminateWhitespace, List.dropWhile_cons, isConWs]
      norm_num
      rw [insert_of_allKeysLt acc k v hfit, conObjectLoop_ws,
        textRT_objectLoop p hr (.cons k2 v2 o3) (acc.snoc k v) g rest (by simp)
          hsort2 hok.2 hfit2 hb hg2,
        cat_snoc]
end

/-- C4 counterexample: the claim fails as stated: the array containing a
single Null has no double-quote characters in any string, yet parsing
its printed text fails and yields no value — the printed word null is
not consumed by the parser's n branch, so the array's separator check
reads the letter n and sets the failbit. -/
theorem c4_text_roundtrip_cex :
    (ConValue.array (.cons .null .nil)).noQuotes = true ∧
    ConValue.print pairPlatform (.array (.cons .null .nil)) = strBytes "[null]" ∧
    parseTextValue pairPlatform 100
      (ConValue.print pairPlatform (.array (.cons .null .nil))) = none := by
  refine ⟨by decide, by decide, by decide⟩

/-- C4 amended: for every Value v whose strings and keys contain no
double-quote characters, which contains no Float node and no Null node
inside an Array or Object, and whose Integer payloads have magnitude at
most 2^53 (exactly representable in the double through which the parser
re-reads numbers), parsing the text printed for v yields a Value equal
to v.  The platform hypothesis states that binary64 rounding is exact
on integers up to 2^53. -/
theorem c4_text_roundtrip (p : Platform) (v : ConValue) (fuel : Nat)
    (hr : ∀ n : Int, n.natAbs ≤ 2 ^ 53 → p.readDouble (n : ℚ) = (n : ℚ))
    (hok : v.textOk = true) (hf : v.pfuel ≤ fuel) :
    parseTextValue p fuel (ConValue.print p v) = some v := by
  by_cases hnn : v = ConValue.null
  · subst hnn
    obtain ⟨f, rfl⟩ : ∃ f, fuel = f + 1 :=
      ⟨fuel - 1, by simp [ConValue.pfuel] at hf; omega⟩
    simp [parseTextValue, ConValue.print, conValueParse, eliminateWhitespace,
      List.dropWhile, isConWs]
  · have h := textRT_value p hr v fuel [] hok hnn rfl hf
    rw [List.append_nil] at h
    simp [parseTextValue, h]

/-- Witness for C4 amended: a two-key object holding an integer and an
array of a boolean and a string round-trips through print and parse. -/
theorem c4_text_roundtrip_witness :
    parseTextValue pairPlatform 100
      (ConValue.print pairPlatform (.object (.cons (strBytes "a") (.integer (-7))
        (.cons (strBytes "b") (.array (.cons (.boolean true)
          (.cons (.string (strBytes "hi")) .nil))) .nil)))) =
    some (.object (.cons (strBytes "a") (.integer (-7))
      (.cons (strBytes "b") (.array (.cons (.boolean true)
        (.cons (.string (strBytes "hi")) .nil))) .nil))) :=
  c4_text_roundtrip pairPlatform _ 100 (fun n _ => rfl) (by decide) (by decide)

end Confile
